import Mathlib

/-! The Hessian encoder of gohessian, `encode.go`.

A shallow embedding of `encode.go` and the properties of its wire format.

* A byte is a natural number below 256; byte slices and Go strings are `List Nat`.
* A Go result `(b []byte, err error)` is the pair `Result`; `none` is the `nil` error.
* Machine integers are `Int`/`Nat`, with the narrowing conversions made explicit.
* The `for` loops run on a fuel counter and answer `none` when the fuel is used up
  before the loop condition turns false; the encoders start them with the length
  of the input, which is shown to be enough.
-/

namespace gohessian

/-! ## Data model -/

/-- A Go `error` value. -/
abbrev Error := String

/-- The pair `(b []byte, err error)` every encoder returns. -/
abbrev Result := List Nat × Option Error

/-- The chunk threshold `CHUNK_SIZE = 0x8000`. -/
def CHUNK_SIZE : Nat := 0x8000

/-- The dynamic values `Encode` switches on.  `time` carries `UnixNano()`, `float64`
the IEEE-754 bit pattern, `map` its pairs in the order `range` visits them, and
`other` stands for a value of any Go type the switch does not list. -/
inductive Any where
  | binary (v : List Nat)
  | bool (v : Bool)
  | time (unixNano : Int)
  | float64 (bits : Nat)
  | int (v : Int)
  | int32 (v : Int)
  | int64 (v : Int)
  | string (v : List Nat)
  | null
  | list (v : List Any)
  | map (v : List (Any × Any))
  | other

/-- The packing primitives `encode.go` calls; they live in another file of the package. -/
structure Packer where
  PackUint16 : Nat → Result
  PackInt32 : Int → Result
  PackInt64 : Int → Result
  PackFloat64 : Nat → Result

/-! ## Conversions between machine integers -/

/-- The conversion `uint16(n)`. -/
def toUint16 (n : Nat) : Nat := n % 65536

/-- The conversion `int32(n)` of a wider integer: wrap to 32 bits, two's complement. -/
def toInt32 (n : Int) : Int := (n + 2147483648) % 4294967296 - 2147483648

/-- The big-endian digits of `n` in base 256, `w` of them (the low `8*w` bits). -/
def bigEndian : Nat → Nat → List Nat
  | 0, _ => []
  | w + 1, n => bigEndian w (n / 256) ++ [n % 256]

/-- The number a big-endian byte sequence spells. -/
def fromBigEndian (bs : List Nat) : Nat := bs.foldl (fun acc x => acc * 256 + x) 0

/-- A `w`-byte big-endian sequence read as a two's-complement integer. -/
def fromBigEndianSigned (bs : List Nat) : Int :=
  if fromBigEndian bs < 2 ^ (8 * bs.length - 1) then (fromBigEndian bs : Int)
  else (fromBigEndian bs : Int) - 2 ^ (8 * bs.length)

/-- Modelled from the spec: the primitive packer (`PackUint16`, `PackInt32`, `PackInt64`,
`PackFloat64`), which is not part of `encode.go`.  Each one gives a fixed-length
big-endian sequence of 2, 4, 8 and 8 bytes, signed values in two's complement; the only
failure the spec allows, an allocation error, does not occur here. -/
def specPacker : Packer where
  PackUint16 := fun u => (bigEndian 2 u, none)
  PackInt32 := fun i => (bigEndian 4 (i % 4294967296).toNat, none)
  PackInt64 := fun i => (bigEndian 8 (i % 18446744073709551616).toNat, none)
  PackFloat64 := fun f => (bigEndian 8 f, none)

/-! ## Scalar encoders -/

/-- The function `encodeBool`: the `'T'` branch has no `else`, so `'F'` is appended after it. -/
def encodeBool (v : Bool) : Result :=
  let b : List Nat := []
  let b := if v = true then b ++ [0x54] else b
  let b := b ++ [0x46]
  (b, none)

/-- The function `encodeTime`, on `v.UnixNano()`; Go's `/` truncates toward zero. -/
def encodeTime (pk : Packer) (unixNano : Int) : Result :=
  let b : List Nat := [0x64]
  match pk.PackInt64 (Int.tdiv unixNano 1000000) with
  | (_, some err) => ([], some err)
  | (tmpV, none) => (b ++ tmpV, none)

/-- The function `encodeFloat64`. -/
def encodeFloat64 (pk : Packer) (bits : Nat) : Result :=
  match pk.PackFloat64 bits with
  | (_, some err) => ([], some err)
  | (tmpV, none) => ([0x44] ++ tmpV, none)

/-- The function `encodeInt32`. -/
def encodeInt32 (pk : Packer) (v : Int) : Result :=
  match pk.PackInt32 v with
  | (_, some err) => ([], some err)
  | (tmpV, none) => ([0x49] ++ tmpV, none)

/-- The function `encodeInt64`. -/
def encodeInt64 (pk : Packer) (v : Int) : Result :=
  match pk.PackInt64 v with
  | (_, some err) => ([], some err)
  | (tmpV, none) => ([0x4c] ++ tmpV, none)

/-- The function `encodeNull`. -/
def encodeNull : Result := ([0x4e], none)

/-! ## Binary -/

/-- The loop `for rBuf.Len() > 0` of `encodeBinary`, on the unread bytes `rBuf` and the
output `b` so far. -/
def binaryLoop (pk : Packer) : Nat → List Nat → List Nat → Option Result
  | 0, rBuf, b => if rBuf.length > 0 then none else some (b, none)
  | fuel + 1, rBuf, b =>
    if rBuf.length > 0 then
      if rBuf.length > CHUNK_SIZE then
        match pk.PackUint16 (toUint16 CHUNK_SIZE) with
        | (_, some err) => some ([], some err)
        | (lenB, none) =>
          binaryLoop pk fuel (rBuf.drop CHUNK_SIZE) (b ++ [0x62] ++ lenB ++ rBuf.take CHUNK_SIZE)
      else
        match pk.PackUint16 (toUint16 rBuf.length) with
        | (_, some err) => some ([], some err)
        | (lenB, none) =>
          binaryLoop pk fuel (rBuf.drop rBuf.length)
            (b ++ [0x42] ++ lenB ++ rBuf.take rBuf.length)
    else some (b, none)

/-- The function `encodeBinary`.  The loop gets `len(v)` rounds, which it never uses up
(`binaryLoop_total`). -/
def encodeBinary (pk : Packer) (v : List Nat) : Result :=
  if v.length = 0 then
    match pk.PackUint16 0 with
    | (_, some err) => ([], some err)
    | (lenB, none) => ([0x42] ++ lenB, none)
  else
    match binaryLoop pk v.length v [] with
    | some r => r
    | none => ([], none)

/-! ## Text: the UTF-8 routines of Go's `unicode/utf8` and `bytes.Buffer` -/

/-- The rune `utf8.RuneError`, U+FFFD. -/
def RuneError : Nat := 0xFFFD

/-- The table `first` of `unicode/utf8`: what a leading byte announces.  `0xF0` is an
ASCII byte, `0xF1` an illegal one; otherwise the low three bits are the length of the
sequence and the high four bits the index into `acceptRanges`. -/
def first (c : Nat) : Nat :=
  if c < 0x80 then 0xF0
  else if c < 0xC2 then 0xF1
  else if c < 0xE0 then 0x02
  else if c = 0xE0 then 0x13
  else if c < 0xED then 0x03
  else if c = 0xED then 0x23
  else if c < 0xF0 then 0x03
  else if c = 0xF0 then 0x34
  else if c < 0xF4 then 0x04
  else if c = 0xF4 then 0x44
  else 0xF1

/-- The table `acceptRanges` of `unicode/utf8`: the bounds on the second byte. -/
def acceptRanges : Nat → Nat × Nat
  | 0 => (0x80, 0xBF)
  | 1 => (0xA0, 0xBF)
  | 2 => (0x80, 0x9F)
  | 3 => (0x90, 0xBF)
  | 4 => (0x80, 0x8F)
  | _ => (0, 0)

/-- The function `utf8.DecodeRune`: the first rune of `p` and its width in bytes; an
ill-formed or short sequence gives `(RuneError, 1)`.  Masks and shifts are written as
`%` and `*`: `p0 & 0x1F` is `p0 % 32`, and `a<<6 | b` with `b < 64` is `a * 64 + b`. -/
def DecodeRune (p : List Nat) : Nat × Nat :=
  match p with
  | [] => (RuneError, 0)
  | p0 :: t =>
    let x := first p0
    if x ≥ 0xF0 then (if x = 0xF1 then RuneError else p0, 1)
    else
      let sz := x % 8
      let accept := acceptRanges (x / 16)
      if p.length < sz then (RuneError, 1)
      else
        let b1 := t.getD 0 0
        if b1 < accept.1 ∨ accept.2 < b1 then (RuneError, 1)
        else if sz ≤ 2 then (p0 % 32 * 64 + b1 % 64, 2)
        else
          let b2 := t.getD 1 0
          if b2 < 0x80 ∨ 0xBF < b2 then (RuneError, 1)
          else if sz ≤ 3 then (p0 % 16 * 4096 + b1 % 64 * 64 + b2 % 64, 3)
          else
            let b3 := t.getD 2 0
            if b3 < 0x80 ∨ 0xBF < b3 then (RuneError, 1)
            else (p0 % 8 * 262144 + b1 % 64 * 4096 + b2 % 64 * 64 + b3 % 64, 4)

/-- The conversion `[]byte(string(r))` of a rune, as `utf8.EncodeRune` writes it: a
surrogate or a value above U+10FFFF becomes U+FFFD. -/
def encodeRune (r : Nat) : List Nat :=
  if r ≤ 0x7F then [r]
  else if r ≤ 0x7FF then [0xC0 + r / 64, 0x80 + r % 64]
  else if r > 0x10FFFF ∨ (0xD800 ≤ r ∧ r ≤ 0xDFFF) then [0xEF, 0xBF, 0xBD]
  else if r ≤ 0xFFFF then [0xE0 + r / 4096, 0x80 + r / 64 % 64, 0x80 + r % 64]
  else [0xF0 + r / 262144, 0x80 + r / 4096 % 64, 0x80 + r / 64 % 64, 0x80 + r % 64]

/-- Runes counted by reading them off `p` one after another, at most `fuel` of them. -/
def runeCountFuel : Nat → List Nat → Nat
  | 0, _ => 0
  | fuel + 1, p =>
    match p with
    | [] => 0
    | _ :: _ => 1 + runeCountFuel fuel (p.drop (DecodeRune p).2)

/-- The functions `utf8.RuneCount` and `utf8.RuneCountInString`: the number of runes in
`p`, an ill-formed or short sequence counting as one rune of width one byte. -/
def RuneCount (p : List Nat) : Nat := runeCountFuel p.length p

/-- The method `(*bytes.Buffer).ReadRune` on the unread bytes: the rune, its size, the
error (`io.EOF` on an empty buffer) and the bytes left unread. -/
def ReadRune (buf : List Nat) : Nat × Nat × Option Error × List Nat :=
  match buf with
  | [] => (0, 0, some "EOF", [])
  | c :: t =>
    if c < 0x80 then (c, 1, none, t)
    else (( DecodeRune buf).1, (DecodeRune buf).2, none, buf.drop (DecodeRune buf).2)

/-- The closure `sChunk` of `encodeString`, on the state `(sBuf, b)` it captures. -/
def sChunk : Nat → List Nat × List Nat → List Nat × List Nat
  | 0, st => st
  | n + 1, (sBuf, b) =>
    match ReadRune sBuf with
    | (r, s, err, rest) =>
      sChunk n (rest, if s > 0 ∧ err = none then b ++ encodeRune r else b)

/-- The loop `for { ... }` of `encodeString`, on the unread bytes `sBuf` and the output
`b` so far. -/
def stringLoop (pk : Packer) : Nat → List Nat → List Nat → Option Result
  | 0, sBuf, b => if RuneCount sBuf = 0 then some (b, none) else none
  | fuel + 1, sBuf, b =>
    if RuneCount sBuf = 0 then some (b, none)
    else if RuneCount sBuf > CHUNK_SIZE then
      match pk.PackUint16 (toUint16 CHUNK_SIZE) with
      | (_, some err) => some ([], some err)
      | (lenB, none) =>
        stringLoop pk fuel (sChunk CHUNK_SIZE (sBuf, b ++ [0x73] ++ lenB)).1
          (sChunk CHUNK_SIZE (sBuf, b ++ [0x73] ++ lenB)).2
    else
      match pk.PackUint16 (toUint16 (RuneCount sBuf)) with
      | (_, some err) => some ([], some err)
      | (lenB, none) =>
        stringLoop pk fuel (sChunk (RuneCount sBuf) (sBuf, b ++ [0x53] ++ lenB)).1
          (sChunk (RuneCount sBuf) (sBuf, b ++ [0x53] ++ lenB)).2

/-- The function `encodeString`.  The loop gets `len(v)` rounds, which it never uses up
(`stringLoop_total`). -/
def encodeString (pk : Packer) (v : List Nat) : Result :=
  if v = [] then
    match pk.PackUint16 (toUint16 (RuneCount v)) with
    | (_, some err) => ([], some err)
    | (lenB, none) => ([0x53] ++ lenB ++ [], none)
  else
    match stringLoop pk v.length v [] with
    | some r => r
    | none => ([], none)

/-! ## The dispatcher and the composite encoders -/

mutual
/-- The function `Encode`, for a 64-bit `int`.  The cases `[]Any` and `map[Any]Any` carry
the bodies of `encodeList` and `encodeMap` (see `Encode_list` and `Encode_map`). -/
def Encode (pk : Packer) : Any → Result
  | .binary v => encodeBinary pk v
  | .bool v => encodeBool v
  | .time v => encodeTime pk v
  | .float64 v => encodeFloat64 pk v
  | .int v =>
    if v ≥ -2147483648 ∧ v ≤ 2147483647 then encodeInt32 pk (toInt32 v)
    else encodeInt64 pk v
  | .int32 v => encodeInt32 pk v
  | .int64 v => encodeInt64 pk v
  | .string v => encodeString pk v
  | .null => encodeNull
  | .list v =>
    match pk.PackInt32 (toInt32 v.length) with
    | (_, some err) => ([], some err)
    | (lenB, none) => listLoop pk v ([0x56] ++ [0x6c] ++ lenB)
  | .map v => mapLoop pk v [0x4d]
  | .other => ([], some "unknow type")
/-- The loop `for _, a := range v` of `encodeList` with the final `'z'`. -/
def listLoop (pk : Packer) : List Any → List Nat → Result
  | [], b => (b ++ [0x7a], none)
  | a :: rest, b =>
    match Encode pk a with
    | (_, some err) => ([], some err)
    | (tmpV, none) => listLoop pk rest (b ++ tmpV)
/-- The loop `for k, v := range v` of `encodeMap` with the final `'z'`. -/
def mapLoop (pk : Packer) : List (Any × Any) → List Nat → Result
  | [], b => (b ++ [0x7a], none)
  | (k, v) :: rest, b =>
    match Encode pk k with
    | (_, some err) => ([], some err)
    | (tmpK, none) =>
      match Encode pk v with
      | (_, some err) => ([], some err)
      | (tmpV, none) => mapLoop pk rest (b ++ tmpK ++ tmpV)
end

/-- The function `encodeList`. -/
def encodeList (pk : Packer) (v : List Any) : Result :=
  match pk.PackInt32 (toInt32 v.length) with
  | (_, some err) => ([], some err)
  | (lenB, none) => listLoop pk v ([0x56] ++ [0x6c] ++ lenB)

/-- The function `encodeMap`. -/
def encodeMap (pk : Packer) (v : List (Any × Any)) : Result :=
  mapLoop pk v [0x4d]

/-! ## Chunks on the wire -/

/-- One chunk of a binary or text value: its tag byte, the number in its 2-byte length
header, and its payload bytes. -/
structure Chunk where
  tag : Nat
  len : Nat
  payload : List Nat
  deriving DecidableEq

/-- The bytes of a chunk: the tag, the 2-byte big-endian length header, the payload. -/
def Chunk.wire (c : Chunk) : List Nat := c.tag :: bigEndian 2 c.len ++ c.payload

/-- A byte sequence split into chunks of one tag byte, a 2-byte big-endian length header
`n`, then `n` payload bytes; `none` when the bytes are not such a sequence of chunks (or
more than `fuel` chunks). -/
def splitChunks : Nat → List Nat → Option (List Chunk)
  | 0, bs => if bs = [] then some [] else none
  | fuel + 1, bs =>
    match bs with
    | [] => some []
    | tag :: hi :: lo :: rest =>
      if rest.length < fromBigEndian [hi, lo] then none
      else
        (splitChunks fuel (rest.drop (fromBigEndian [hi, lo]))).map
          (fun cs => ⟨tag, fromBigEndian [hi, lo], rest.take (fromBigEndian [hi, lo])⟩ :: cs)
    | _ => none

/-- The chunks of an encoded binary value. -/
def binaryChunks (bs : List Nat) : Option (List Chunk) := splitChunks bs.length bs

/-- The first `k` full chunks cut from `r`, each with tag `'b'` and `CHUNK_SIZE` bytes. -/
def contChunks : Nat → List Nat → List Chunk
  | 0, _ => []
  | k + 1, r => ⟨0x62, CHUNK_SIZE, r.take CHUNK_SIZE⟩ :: contChunks k (r.drop CHUNK_SIZE)

/-- The chunk with tag `'B'` holding what is left of `r` after `k` full chunks. -/
def finalChunk (k : Nat) (r : List Nat) : Chunk :=
  ⟨0x42, (r.drop (k * CHUNK_SIZE)).length, r.drop (k * CHUNK_SIZE)⟩

/-! ## Code points of a text -/

/-- Well-formedness read off `p` one rune after another, at most `fuel` of them. -/
def validFuel : Nat → List Nat → Bool
  | 0, p => p.isEmpty
  | fuel + 1, p =>
    match p with
    | [] => true
    | _ :: _ =>
      decide (DecodeRune p ≠ (RuneError, 1)) && validFuel fuel (p.drop (DecodeRune p).2)

/-- The functions `utf8.Valid` and `utf8.ValidString`: `p` is well-formed UTF-8, that is,
no rune read off it is the one-byte `RuneError` of an ill-formed or short sequence. -/
def ValidString (p : List Nat) : Bool := validFuel p.length p

/-- The first `n` runes of `p` (fewer when `p` ends before). -/
def decodeRunes : Nat → List Nat → List Nat
  | 0, _ => []
  | n + 1, p =>
    match p with
    | [] => []
    | _ :: _ => (DecodeRune p).1 :: decodeRunes n (p.drop (DecodeRune p).2)

/-- What is left of `p` after its first `n` runes. -/
def dropRunes : Nat → List Nat → List Nat
  | 0, p => p
  | n + 1, p =>
    match p with
    | [] => []
    | _ :: _ => dropRunes n (p.drop (DecodeRune p).2)

/-- The code points of a text: every rune `DecodeRune` reads off it, an ill-formed byte
being read as U+FFFD. -/
def runes (p : List Nat) : List Nat := decodeRunes (RuneCount p) p

/-- The UTF-8 bytes of a sequence of code points. -/
def encodeRunes (rs : List Nat) : List Nat := rs.flatMap encodeRune

/-- The number of bytes the first `n` runes of `p` take; `none` when `p` has fewer. -/
def runeBytes : Nat → List Nat → Option Nat
  | 0, _ => some 0
  | n + 1, p =>
    match p with
    | [] => none
    | _ :: _ =>
      (runeBytes n (p.drop (DecodeRune p).2)).map (fun m => (DecodeRune p).2 + m)

/-- A byte sequence split into text chunks of one tag byte, a 2-byte big-endian length
header `n`, then `n` code points in UTF-8; `none` when the bytes are not such a sequence
of chunks (or more than `fuel` chunks). -/
def splitTextChunks : Nat → List Nat → Option (List Chunk)
  | 0, bs => if bs = [] then some [] else none
  | fuel + 1, bs =>
    match bs with
    | [] => some []
    | tag :: hi :: lo :: rest =>
      match runeBytes (fromBigEndian [hi, lo]) rest with
      | none => none
      | some m =>
        (splitTextChunks fuel (rest.drop m)).map
          (fun cs => ⟨tag, fromBigEndian [hi, lo], rest.take m⟩ :: cs)
    | _ => none

/-- The chunks of an encoded text value. -/
def textChunks (bs : List Nat) : Option (List Chunk) := splitTextChunks bs.length bs

/-- The first `k` full text chunks cut from `p`, each with tag `'s'` and the UTF-8 bytes
of `CHUNK_SIZE` code points. -/
def textCont : Nat → List Nat → List Chunk
  | 0, _ => []
  | k + 1, p =>
    ⟨0x73, CHUNK_SIZE, encodeRunes (decodeRunes CHUNK_SIZE p)⟩ ::
      textCont k (dropRunes CHUNK_SIZE p)

/-- The chunk with tag `'S'` holding the code points left in `p` after `k` full chunks. -/
def textFinal (k : Nat) (p : List Nat) : Chunk :=
  ⟨0x53, RuneCount (dropRunes (k * CHUNK_SIZE) p),
    encodeRunes (runes (dropRunes (k * CHUNK_SIZE) p))⟩

/-! ## The object stub, the supported kinds and their tags -/

/-- The function `encodeObject`: it appends `'o'` and returns no error.  `Encode` has no
case that calls it. -/
def encodeObject (_v : Any) : Result := ([0x6f], none)

mutual
/-- A value tree built only from the kinds `Encode` lists: no value of another Go type
in it, at any depth of its lists and maps. -/
def supported : Any → Bool
  | .binary _ => true
  | .bool _ => true
  | .time _ => true
  | .float64 _ => true
  | .int _ => true
  | .int32 _ => true
  | .int64 _ => true
  | .string _ => true
  | .null => true
  | .list v => supportedList v
  | .map v => supportedPairs v
  | .other => false
/-- Every element of a list is supported. -/
def supportedList : List Any → Bool
  | [] => true
  | a :: rest => supported a && supportedList rest
/-- Every key and value of a sequence of pairs is supported. -/
def supportedPairs : List (Any × Any) → Bool
  | [] => true
  | (k, v) :: rest => supported k && supported v && supportedPairs rest
end

/-- The tag byte the wire format gives the kind of a value: `'N'`, `'T'`/`'F'`, `'I'`,
`'L'`, `'D'`, `'d'`, `'b'`/`'B'`, `'s'`/`'S'`, `'V'`, `'M'`; a plain `int` has the tag of
the width it is sent in, and a kind without a tag gets 0. -/
def kindTag : Any → Nat
  | .binary v => if v.length > 32768 then 0x62 else 0x42
  | .bool v => if v = true then 0x54 else 0x46
  | .time _ => 0x64
  | .float64 _ => 0x44
  | .int v => if v ≥ -2147483648 ∧ v ≤ 2147483647 then 0x49 else 0x4c
  | .int32 _ => 0x49
  | .int64 _ => 0x4c
  | .string v => if RuneCount v > 32768 then 0x73 else 0x53
  | .null => 0x4e
  | .list _ => 0x56
  | .map _ => 0x4d
  | .other => 0

/-- A packer whose `PackInt64` reports an error, as on a failed allocation, and whose
other functions are those of `specPacker`; it exercises the error branches. -/
def failingPacker : Packer where
  PackUint16 := specPacker.PackUint16
  PackInt32 := specPacker.PackInt32
  PackInt64 := fun _ => ([], some "cannot allocate")
  PackFloat64 := specPacker.PackFloat64

/-- The byte blocks of the pairs of a mapping, in the order given: for each pair the
bytes `Encode` returns for the key followed by those it returns for the value. -/
def pairBlocks (pk : Packer) (m : List (Any × Any)) : List (List Nat) :=
  m.map fun p => (Encode pk p.1).1 ++ (Encode pk p.2).1

/-! # Properties -/

/-! ## Big-endian fields -/

@[simp] theorem specPacker_PackUint16 (u : Nat) :
    specPacker.PackUint16 u = (bigEndian 2 u, none) := rfl

@[simp] theorem specPacker_PackInt32 (i : Int) :
    specPacker.PackInt32 i = (bigEndian 4 (i % 4294967296).toNat, none) := rfl

@[simp] theorem specPacker_PackInt64 (i : Int) :
    specPacker.PackInt64 i = (bigEndian 8 (i % 18446744073709551616).toNat, none) := rfl

@[simp] theorem specPacker_PackFloat64 (f : Nat) :
    specPacker.PackFloat64 f = (bigEndian 8 f, none) := rfl

theorem bigEndian_length (w n : Nat) : (bigEndian w n).length = w := by
  induction w generalizing n with
  | zero => rfl
  | succ w ih => simp [bigEndian, ih]

theorem fromBigEndian_snoc (l : List Nat) (x : Nat) :
    fromBigEndian (l ++ [x]) = fromBigEndian l * 256 + x := by
  simp [fromBigEndian]

theorem fromBigEndian_bigEndian (w n : Nat) :
    fromBigEndian (bigEndian w n) = n % 256 ^ w := by
  induction w generalizing n with
  | zero => simp [bigEndian, fromBigEndian, Nat.mod_one]
  | succ w ih =>
    rw [bigEndian, fromBigEndian_snoc, ih, pow_succ', Nat.mod_mul]
    ring

theorem fromBigEndian_bigEndian_of_lt (w n : Nat) (h : n < 256 ^ w) :
    fromBigEndian (bigEndian w n) = n := by
  rw [fromBigEndian_bigEndian, Nat.mod_eq_of_lt h]

/-- A 32-bit signed value read back from its four big-endian bytes. -/
theorem fromBigEndianSigned_int32 (n : Int) (h : -2147483648 ≤ n ∧ n ≤ 2147483647) :
    fromBigEndianSigned (bigEndian 4 (n % 4294967296).toNat) = n := by
  unfold fromBigEndianSigned
  rw [bigEndian_length, fromBigEndian_bigEndian_of_lt _ _ (by norm_num; omega)]
  norm_num
  split <;> omega

/-- A 64-bit signed value read back from its eight big-endian bytes. -/
theorem fromBigEndianSigned_int64 (n : Int)
    (h : -9223372036854775808 ≤ n ∧ n ≤ 9223372036854775807) :
    fromBigEndianSigned (bigEndian 8 (n % 18446744073709551616).toNat) = n := by
  unfold fromBigEndianSigned
  rw [bigEndian_length, fromBigEndian_bigEndian_of_lt _ _ (by norm_num; omega)]
  norm_num
  split <;> omega

/-! ## Booleans, integers and timestamps -/

/-- C5, on the code: `encodeBool`, and `Encode` on a bool, give the two bytes `'T','F'` for
`true` (the `'F'` is appended after the `'T'`, there is no `else`) and the one byte `'F'`
for `false`; the encoding of `true` is not the single byte `'T'` and its length is 2. -/
theorem encodeBool_true_two_bytes :
    encodeBool true = ([0x54, 0x46], none) ∧
    Encode specPacker (.bool true) = ([0x54, 0x46], none) ∧
    (Encode specPacker (.bool true)).1 ≠ [0x54] ∧
    (Encode specPacker (.bool true)).1.length = 2 ∧
    encodeBool false = ([0x46], none) ∧
    Encode specPacker (.bool false) = ([0x46], none) := by
  decide

/-- C8: for every `n` in the signed 32-bit range, `Encode` of the int32 `n` succeeds with
exactly 5 bytes, the tag `'I'` and a 4-byte payload, and the payload read as a big-endian
two's-complement integer is `n`. -/
theorem Encode_int32_roundtrip (n : Int) (h : -2147483648 ≤ n ∧ n ≤ 2147483647) :
    ∃ p : List Nat, Encode specPacker (.int32 n) = (0x49 :: p, none) ∧
      (Encode specPacker (.int32 n)).1.length = 5 ∧ p.length = 4 ∧
      fromBigEndianSigned p = n := by
  refine ⟨bigEndian 4 (n % 4294967296).toNat, ?_, ?_, bigEndian_length _ _,
    fromBigEndianSigned_int32 n h⟩
  · simp [Encode, encodeInt32, specPacker]
  · simp [Encode, encodeInt32, specPacker, bigEndian_length]

theorem Encode_int32_roundtrip_witness :
    ((-2147483648 : Int) ≤ -5 ∧ (-5 : Int) ≤ 2147483647) ∧
    ∃ p : List Nat, Encode specPacker (.int32 (-5)) = (0x49 :: p, none) ∧
      (Encode specPacker (.int32 (-5))).1.length = 5 ∧ p.length = 4 ∧
      fromBigEndianSigned p = -5 :=
  ⟨by decide, Encode_int32_roundtrip (-5) (by decide)⟩

/-- C9: for every `n` in the signed 64-bit range, `Encode` of the int64 `n` succeeds with
exactly 9 bytes, the tag `'L'` and an 8-byte payload, and the payload read as a big-endian
two's-complement integer is `n`. -/
theorem Encode_int64_roundtrip (n : Int)
    (h : -9223372036854775808 ≤ n ∧ n ≤ 9223372036854775807) :
    ∃ p : List Nat, Encode specPacker (.int64 n) = (0x4c :: p, none) ∧
      (Encode specPacker (.int64 n)).1.length = 9 ∧ p.length = 8 ∧
      fromBigEndianSigned p = n := by
  refine ⟨bigEndian 8 (n % 18446744073709551616).toNat, ?_, ?_, bigEndian_length _ _,
    fromBigEndianSigned_int64 n h⟩
  · simp [Encode, encodeInt64, specPacker]
  · simp [Encode, encodeInt64, specPacker, bigEndian_length]

theorem Encode_int64_roundtrip_witness :
    ((-9223372036854775808 : Int) ≤ -5 ∧ (-5 : Int) ≤ 9223372036854775807) ∧
    ∃ p : List Nat, Encode specPacker (.int64 (-5)) = (0x4c :: p, none) ∧
      (Encode specPacker (.int64 (-5))).1.length = 9 ∧ p.length = 8 ∧
      fromBigEndianSigned p = -5 :=
  ⟨by decide, Encode_int64_roundtrip (-5) (by decide)⟩

theorem tdiv_million_floor (t : Int) (h : 0 ≤ t) :
    Int.tdiv t 1000000 = ⌊(t : ℚ) / 1000000⌋ := by
  rw [Int.tdiv_eq_ediv h (by norm_num)]
  have key := Rat.floor_intCast_div_natCast t 1000000
  simpa using key.symm

theorem tdiv_million_ceil (t : Int) (h : t < 0) :
    Int.tdiv t 1000000 = ⌈(t : ℚ) / 1000000⌉ := by
  have h1 : Int.tdiv t 1000000 = -Int.tdiv (-t) 1000000 := by
    rw [Int.neg_tdiv, neg_neg]
  have h2 : (t : ℚ) / 1000000 = -(((-t : Int) : ℚ) / 1000000) := by
    push_cast
    ring
  rw [h1, tdiv_million_floor (-t) (by omega), h2, Int.ceil_neg]

/-- C10: for every timestamp, given as its signed 64-bit count `t` of nanoseconds since
the epoch, `encodeTime` (and `Encode`) gives the tag `'d'` and the 8 big-endian bytes of
`t / 1000000` truncated toward zero: those bytes read back as that quotient, which is the
floor of `t / 10^6` for `t ≥ 0` and the ceiling for `t < 0`; `-1` ns encodes millisecond
`0`. -/
theorem encodeTime_truncates (t : Int)
    (h : -9223372036854775808 ≤ t ∧ t ≤ 9223372036854775807) :
    ∃ p : List Nat, encodeTime specPacker t = (0x64 :: p, none) ∧
      Encode specPacker (.time t) = (0x64 :: p, none) ∧ p.length = 8 ∧
      p = bigEndian 8 ((Int.tdiv t 1000000) % 18446744073709551616).toNat ∧
      fromBigEndianSigned p = Int.tdiv t 1000000 ∧
      (0 ≤ t → Int.tdiv t 1000000 = ⌊(t : ℚ) / 1000000⌋) ∧
      (t < 0 → Int.tdiv t 1000000 = ⌈(t : ℚ) / 1000000⌉) ∧
      encodeTime specPacker (-1) = ([0x64, 0, 0, 0, 0, 0, 0, 0, 0], none) := by
  have hr : -9223372036854775808 ≤ Int.tdiv t 1000000 ∧
      Int.tdiv t 1000000 ≤ 9223372036854775807 := by
    rcases le_or_lt 0 t with h0 | h0
    · rw [Int.tdiv_eq_ediv h0 (by norm_num)]
      omega
    · have h1 : Int.tdiv t 1000000 = -Int.tdiv (-t) 1000000 := by
        rw [Int.neg_tdiv, neg_neg]
      rw [h1, Int.tdiv_eq_ediv (by omega) (by norm_num)]
      omega
  refine ⟨bigEndian 8 ((Int.tdiv t 1000000) % 18446744073709551616).toNat, ?_, ?_,
    bigEndian_length _ _, rfl, fromBigEndianSigned_int64 _ hr, tdiv_million_floor t,
    tdiv_million_ceil t, by decide⟩
  · simp [encodeTime, specPacker]
  · simp [Encode, encodeTime, specPacker]

theorem encodeTime_truncates_witness :
    ((-9223372036854775808 : Int) ≤ -1500000 ∧ (-1500000 : Int) ≤ 9223372036854775807) ∧
    ∃ p : List Nat, encodeTime specPacker (-1500000) = (0x64 :: p, none) ∧
      Encode specPacker (.time (-1500000)) = (0x64 :: p, none) ∧ p.length = 8 ∧
      p = bigEndian 8 ((Int.tdiv (-1500000) 1000000) % 18446744073709551616).toNat ∧
      fromBigEndianSigned p = Int.tdiv (-1500000) 1000000 ∧
      ((0 : Int) ≤ -1500000 →
        Int.tdiv (-1500000) 1000000 = ⌊((-1500000 : Int) : ℚ) / 1000000⌋) ∧
      ((-1500000 : Int) < 0 →
        Int.tdiv (-1500000) 1000000 = ⌈((-1500000 : Int) : ℚ) / 1000000⌉) ∧
      encodeTime specPacker (-1) = ([0x64, 0, 0, 0, 0, 0, 0, 0, 0], none) :=
  ⟨by decide, encodeTime_truncates (-1500000) (by decide)⟩

/-! ## Lists and maps -/

theorem Encode_list (pk : Packer) (v : List Any) : Encode pk (.list v) = encodeList pk v := by
  rw [Encode, encodeList]

theorem Encode_map (pk : Packer) (v : List (Any × Any)) :
    Encode pk (.map v) = encodeMap pk v := by
  rw [Encode, encodeMap]

theorem listLoop_ok (pk : Packer) (xs : List Any) (b : List Nat)
    (hok : ∀ x ∈ xs, (Encode pk x).2 = none) :
    listLoop pk xs b = (b ++ (xs.map fun x => (Encode pk x).1).flatten ++ [0x7a], none) := by
  induction xs generalizing b with
  | nil => simp [listLoop]
  | cons a rest ih =>
    have ha : (Encode pk a).2 = none := hok a (List.mem_cons_self _ _)
    rcases h : Encode pk a with ⟨ba, ea⟩
    rw [h] at ha
    simp only at ha
    subst ha
    rw [listLoop, h]
    simp only
    rw [ih _ (fun x hx => hok x (List.mem_cons_of_mem _ hx))]
    simp [h]

theorem mapLoop_ok (pk : Packer) (m : List (Any × Any)) (b : List Nat)
    (hok : ∀ p ∈ m, (Encode pk p.1).2 = none ∧ (Encode pk p.2).2 = none) :
    mapLoop pk m b =
      (b ++ (m.map fun p => (Encode pk p.1).1 ++ (Encode pk p.2).1).flatten ++ [0x7a],
        none) := by
  induction m generalizing b with
  | nil => simp [mapLoop]
  | cons kv rest ih =>
    obtain ⟨k, v⟩ := kv
    have hkv := hok (k, v) (List.mem_cons_self _ _)
    rcases hk : Encode pk k with ⟨bk, ek⟩
    rcases hv : Encode pk v with ⟨bv, ev⟩
    rw [hk, hv] at hkv
    simp only at hkv
    obtain ⟨rfl, rfl⟩ := hkv
    rw [mapLoop, hk]
    simp only
    rw [hv]
    simp only
    rw [ih _ (fun p hp => hok p (List.mem_cons_of_mem _ hp))]
    simp [hk, hv]

theorem Encode_list_eq (xs : List Any) (hok : ∀ x ∈ xs, (Encode specPacker x).2 = none) :
    Encode specPacker (.list xs) =
      ([0x56, 0x6c] ++ bigEndian 4 ((toInt32 xs.length) % 4294967296).toNat ++
        (xs.map fun x => (Encode specPacker x).1).flatten ++ [0x7a], none) := by
  rw [Encode, specPacker_PackInt32]
  simp only
  rw [listLoop_ok _ _ _ hok]
  simp

/-- C6, as the code has it: for every list `xs` of fewer than 2^31 values each of which
encodes, `Encode` (which is `encodeList`) gives `'V','l'`, the 4 big-endian bytes of
`len(xs)`, the encodings of the elements in order, then `'z'`; the count field read as a
signed integer is the number of element encodings written.  The empty list gives
`'V','l',0,0,0,0,'z'`, and `[1,[2,3]]` gives the frame with count 2 around the int32
encoding of 1 and the whole list encoding of `[2,3]`. -/
theorem Encode_list_frame (xs : List Any) (hlen : xs.length < 2147483648)
    (hok : ∀ x ∈ xs, (Encode specPacker x).2 = none) :
    Encode specPacker (.list xs) =
      ([0x56, 0x6c] ++ bigEndian 4 xs.length ++
        (xs.map fun x => (Encode specPacker x).1).flatten ++ [0x7a], none) ∧
    encodeList specPacker xs = Encode specPacker (.list xs) ∧
    (bigEndian 4 xs.length).length = 4 ∧
    fromBigEndianSigned (bigEndian 4 xs.length) =
      ((xs.map fun x => (Encode specPacker x).1).length : Int) ∧
    Encode specPacker (.list []) = ([0x56, 0x6c, 0, 0, 0, 0, 0x7a], none) ∧
    Encode specPacker (.list [.int 1, .list [.int 2, .int 3]]) =
      ([0x56, 0x6c] ++ [0, 0, 0, 2] ++ ((Encode specPacker (.int32 1)).1 ++
        (Encode specPacker (.list [.int 2, .int 3])).1) ++ [0x7a], none) := by
  have hcount : ((toInt32 xs.length) % 4294967296).toNat = xs.length := by
    unfold toInt32
    omega
  refine ⟨?_, (Encode_list _ _).symm, bigEndian_length _ _, ?_, by decide, by decide⟩
  · rw [Encode_list_eq xs hok, hcount]
  · have h := fromBigEndianSigned_int32 (xs.length : Int) (by omega)
    have h2 : ((xs.length : Int) % 4294967296).toNat = xs.length := by omega
    rw [h2] at h
    simpa using h

theorem Encode_list_frame_witness :
    ([Any.int 1, .list [.int 2, .int 3]].length < 2147483648 ∧
      ∀ x ∈ [Any.int 1, .list [.int 2, .int 3]], (Encode specPacker x).2 = none) ∧
    (Encode specPacker (.list [.int 1, .list [.int 2, .int 3]]) =
      ([0x56, 0x6c] ++ bigEndian 4 [Any.int 1, .list [.int 2, .int 3]].length ++
        ([Any.int 1, .list [.int 2, .int 3]].map fun x => (Encode specPacker x).1).flatten
          ++ [0x7a], none) ∧
    encodeList specPacker [.int 1, .list [.int 2, .int 3]] =
      Encode specPacker (.list [.int 1, .list [.int 2, .int 3]]) ∧
    (bigEndian 4 [Any.int 1, .list [.int 2, .int 3]].length).length = 4 ∧
    fromBigEndianSigned (bigEndian 4 [Any.int 1, .list [.int 2, .int 3]].length) =
      (([Any.int 1, .list [.int 2, .int 3]].map
        fun x => (Encode specPacker x).1).length : Int) ∧
    Encode specPacker (.list []) = ([0x56, 0x6c, 0, 0, 0, 0, 0x7a], none) ∧
    Encode specPacker (.list [.int 1, .list [.int 2, .int 3]]) =
      ([0x56, 0x6c] ++ [0, 0, 0, 2] ++ ((Encode specPacker (.int32 1)).1 ++
        (Encode specPacker (.list [.int 2, .int 3])).1) ++ [0x7a], none)) :=
  ⟨⟨by decide, by decide⟩,
    Encode_list_frame [.int 1, .list [.int 2, .int 3]] (by decide) (by decide)⟩

/-- C6, as stated, fails on a list of 2^31 elements: every element (`nil`) encodes and so
does the list, but the count field holds the bytes `0x80,0,0,0`, which read as a signed
big-endian integer are -2147483648 and not the 2147483648 elements written: `int32(len)`
wraps. -/
theorem Encode_list_count_wraps :
    (∀ x ∈ List.replicate 2147483648 Any.null, (Encode specPacker x).2 = none) ∧
    (Encode specPacker (.list (List.replicate 2147483648 Any.null))).2 = none ∧
    ((Encode specPacker (.list (List.replicate 2147483648 Any.null))).1.drop 2).take 4 =
      [0x80, 0, 0, 0] ∧
    fromBigEndianSigned [0x80, 0, 0, 0] = -2147483648 ∧
    fromBigEndianSigned
        (((Encode specPacker (.list (List.replicate 2147483648 Any.null))).1.drop 2).take 4)
      ≠ ((List.replicate 2147483648 Any.null).length : Int) := by
  have hok : ∀ x ∈ List.replicate 2147483648 Any.null, (Encode specPacker x).2 = none := by
    intro x hx
    rw [List.eq_of_mem_replicate hx]
    rfl
  have hhdr : bigEndian 4 ((toInt32 ((List.replicate 2147483648 Any.null).length : Nat))
      % 4294967296).toNat = [0x80, 0, 0, 0] := by
    rw [List.length_replicate]
    decide
  have hfield : ((Encode specPacker (.list (List.replicate 2147483648 Any.null))).1.drop 2).take
      4 = [0x80, 0, 0, 0] := by
    rw [Encode_list_eq _ hok, hhdr]
    simp only [List.cons_append, List.nil_append, List.drop_succ_cons, List.drop_zero,
      List.take_succ_cons, List.take_zero]
  have hval : fromBigEndianSigned [0x80, 0, 0, 0] = -2147483648 := by decide
  refine ⟨hok, ?_, hfield, hval, ?_⟩
  · rw [Encode_list_eq _ hok]
  · rw [hfield, hval, List.length_replicate]
    decide

/-- C7: for every mapping whose keys and values all encode, visited as the pairs
`(k1,v1),...,(kn,vn)`, `Encode` (which is `encodeMap`) gives `'M'`, then
`Encode(k1)++Encode(v1)++...++Encode(kn)++Encode(vn)`, then `'z'`, and nothing else (no
pair count), whatever the packer; the empty mapping gives the two bytes `'M','z'`. -/
theorem Encode_map_frame (pk : Packer) (m : List (Any × Any))
    (hok : ∀ p ∈ m, (Encode pk p.1).2 = none ∧ (Encode pk p.2).2 = none) :
    Encode pk (.map m) =
      ([0x4d] ++ (m.map fun p => (Encode pk p.1).1 ++ (Encode pk p.2).1).flatten ++ [0x7a],
        none) ∧
    encodeMap pk m = Encode pk (.map m) ∧
    Encode pk (.map []) = ([0x4d, 0x7a], none) := by
  refine ⟨?_, (Encode_map _ _).symm, ?_⟩
  · rw [Encode, mapLoop_ok _ _ _ hok]
  · simp [Encode, mapLoop]

theorem Encode_map_frame_witness :
    (∀ p ∈ [(Any.string [0x61], Any.int 1), (Any.null, Any.bool false)],
      (Encode specPacker p.1).2 = none ∧ (Encode specPacker p.2).2 = none) ∧
    (Encode specPacker (.map [(Any.string [0x61], Any.int 1), (Any.null, Any.bool false)]) =
      ([0x4d] ++ ([(Any.string [0x61], Any.int 1), (Any.null, Any.bool false)].map
        fun p => (Encode specPacker p.1).1 ++ (Encode specPacker p.2).1).flatten ++ [0x7a],
        none) ∧
    encodeMap specPacker [(Any.string [0x61], Any.int 1), (Any.null, Any.bool false)] =
      Encode specPacker (.map [(Any.string [0x61], Any.int 1), (Any.null, Any.bool false)]) ∧
    Encode specPacker (.map []) = ([0x4d, 0x7a], none)) :=
  ⟨by decide, Encode_map_frame specPacker
    [(Any.string [0x61], Any.int 1), (Any.null, Any.bool false)] (by decide)⟩

/-! ## Binary chunks -/

theorem bigEndian_two (n : Nat) : bigEndian 2 n = [n / 256 % 256, n % 256] := by
  simp [bigEndian]

theorem fromBigEndian_two (n : Nat) (h : n < 65536) :
    fromBigEndian [n / 256 % 256, n % 256] = n := by
  simp only [fromBigEndian, List.foldl]
  omega

theorem binaryLoop_nil (pk : Packer) (fuel : Nat) (b : List Nat) :
    binaryLoop pk fuel [] b = some (b, none) := by
  cases fuel <;> simp [binaryLoop]

theorem length_contChunks (k : Nat) (r : List Nat) : (contChunks k r).length = k := by
  induction k generalizing r with
  | zero => rfl
  | succ k ih => simp [contChunks, ih]

theorem flatten_payload_contChunks (k : Nat) (r : List Nat) :
    ((contChunks k r).map Chunk.payload).flatten = r.take (k * CHUNK_SIZE) := by
  induction k generalizing r with
  | zero => simp [contChunks]
  | succ k ih =>
    rw [contChunks, List.map_cons, List.flatten_cons, ih]
    have h : (k + 1) * CHUNK_SIZE = CHUNK_SIZE + k * CHUNK_SIZE := by ring
    rw [h, List.take_add]

theorem mem_contChunks (k : Nat) (r : List Nat) (hk : k * CHUNK_SIZE ≤ r.length)
    (c : Chunk) (hc : c ∈ contChunks k r) :
    c.tag = 0x62 ∧ c.len = CHUNK_SIZE ∧ c.payload.length = CHUNK_SIZE := by
  induction k generalizing r with
  | zero => simp [contChunks] at hc
  | succ k ih =>
    have hmul : (k + 1) * CHUNK_SIZE = k * CHUNK_SIZE + CHUNK_SIZE := by ring
    rw [contChunks, List.mem_cons] at hc
    rcases hc with rfl | hc
    · refine ⟨rfl, rfl, ?_⟩
      simp only [List.length_take]
      omega
    · refine ih (r.drop CHUNK_SIZE) ?_ hc
      simp only [List.length_drop]
      omega

/-- What the loop of `encodeBinary` appends for a buffer of `k` full chunks and a rest. -/
theorem binaryLoop_eq (k : Nat) : ∀ (fuel : Nat) (r b : List Nat),
    k * CHUNK_SIZE < r.length → r.length ≤ (k + 1) * CHUNK_SIZE → k + 1 ≤ fuel →
    binaryLoop specPacker fuel r b =
      some (b ++ ((contChunks k r).map Chunk.wire).flatten ++ (finalChunk k r).wire, none) := by
  have hCS : CHUNK_SIZE = 32768 := rfl
  induction k with
  | zero =>
    intro fuel r b h1 h2 h3
    obtain ⟨f, rfl⟩ : ∃ f, fuel = f + 1 := ⟨fuel - 1, by omega⟩
    have hpos : r.length > 0 := by omega
    have hle : ¬ r.length > CHUNK_SIZE := by omega
    rw [binaryLoop, if_pos hpos, if_neg hle, specPacker_PackUint16]
    simp only
    rw [List.drop_length, binaryLoop_nil]
    have hmod : toUint16 r.length = r.length := by
      unfold toUint16
      omega
    simp [contChunks, finalChunk, Chunk.wire, hmod]
  | succ k ih =>
    intro fuel r b h1 h2 h3
    obtain ⟨f, rfl⟩ : ∃ f, fuel = f + 1 := ⟨fuel - 1, by omega⟩
    have hmul : (k + 1) * CHUNK_SIZE = k * CHUNK_SIZE + CHUNK_SIZE := by ring
    have hmul2 : (k + 1 + 1) * CHUNK_SIZE = k * CHUNK_SIZE + CHUNK_SIZE + CHUNK_SIZE := by ring
    have hpos : r.length > 0 := by omega
    have hgt : r.length > CHUNK_SIZE := by omega
    rw [binaryLoop, if_pos hpos, if_pos hgt, specPacker_PackUint16]
    simp only
    rw [ih f (r.drop CHUNK_SIZE) _ (by simp only [List.length_drop]; omega)
      (by simp only [List.length_drop]; omega) (by omega)]
    have hmod : toUint16 CHUNK_SIZE = CHUNK_SIZE := by decide
    have hfin : finalChunk k (r.drop CHUNK_SIZE) = finalChunk (k + 1) r := by
      simp only [finalChunk, List.drop_drop]
      rw [show CHUNK_SIZE + k * CHUNK_SIZE = (k + 1) * CHUNK_SIZE by ring]
    rw [hfin]
    simp [contChunks, Chunk.wire, hmod]

/-- Chunks whose header is the length of their payload are read back by `splitChunks`. -/
theorem splitChunks_wire (cs : List Chunk) : ∀ (fuel : Nat),
    (∀ c ∈ cs, c.len = c.payload.length ∧ c.len < 65536) → cs.length ≤ fuel →
    splitChunks fuel (cs.map Chunk.wire).flatten = some cs := by
  induction cs with
  | nil =>
    intro fuel _ _
    cases fuel <;> simp [splitChunks]
  | cons c cs ih =>
    intro fuel hwf hfuel
    obtain ⟨f, rfl⟩ : ∃ f, fuel = f + 1 := ⟨fuel - 1, by simp at hfuel; omega⟩
    obtain ⟨hlen, hlt⟩ := hwf c (List.mem_cons_self _ _)
    have ih2 := ih f (fun c hc => hwf c (List.mem_cons_of_mem _ hc))
      (by simp at hfuel; omega)
    obtain ⟨tag, len, payload⟩ := c
    simp only at hlen hlt
    subst hlen
    simp only [List.map_cons, List.flatten_cons, Chunk.wire, bigEndian_two, List.cons_append,
      List.nil_append, splitChunks]
    rw [fromBigEndian_two _ hlt]
    simp [ih2]

theorem length_flatten_wire_ge (cs : List Chunk) :
    cs.length ≤ ((cs.map Chunk.wire).flatten).length := by
  induction cs with
  | nil => simp
  | cons c cs ih =>
    simp only [List.map_cons, List.flatten_cons, List.length_append, List.length_cons,
      Chunk.wire]
    omega

/-- The chunks `encodeBinary` writes for a non-empty input: `k` full ones and a final one,
where `k = (len(v) - 1) / CHUNK_SIZE`. -/
theorem encodeBinary_chunks (v : List Nat) (hv : v ≠ []) :
    encodeBinary specPacker v =
      (((contChunks ((v.length - 1) / CHUNK_SIZE) v ++
        [finalChunk ((v.length - 1) / CHUNK_SIZE) v]).map Chunk.wire).flatten, none) := by
  have hCS : CHUNK_SIZE = 32768 := rfl
  have hpos : 0 < v.length := List.length_pos.mpr hv
  have h := binaryLoop_eq ((v.length - 1) / CHUNK_SIZE) v.length v []
    (by rw [hCS]; omega) (by rw [hCS]; omega) (by rw [hCS]; omega)
  rw [encodeBinary, if_neg (by omega), h]
  simp

/-- The loop of `encodeBinary` ends within the `len(v)` rounds it is given. -/
theorem binaryLoop_total (v : List Nat) :
    ∃ r, binaryLoop specPacker v.length v [] = some r := by
  rcases v with _ | ⟨x, t⟩
  · exact ⟨_, binaryLoop_nil _ _ _⟩
  · have hCS : CHUNK_SIZE = 32768 := rfl
    exact ⟨_, binaryLoop_eq (((x :: t).length - 1) / CHUNK_SIZE) (x :: t).length (x :: t) []
      (by rw [hCS]; simp only [List.length_cons]; omega)
      (by rw [hCS]; simp only [List.length_cons]; omega)
      (by rw [hCS]; simp only [List.length_cons]; omega)⟩

theorem binaryChunks_encodeBinary (v : List Nat) (hv : v ≠ []) :
    binaryChunks (encodeBinary specPacker v).1 =
      some (contChunks ((v.length - 1) / CHUNK_SIZE) v ++
        [finalChunk ((v.length - 1) / CHUNK_SIZE) v]) := by
  have hCS : CHUNK_SIZE = 32768 := rfl
  have hpos : 0 < v.length := List.length_pos.mpr hv
  have hk : (v.length - 1) / CHUNK_SIZE * CHUNK_SIZE < v.length := by
    rw [hCS]
    omega
  have hk2 : v.length ≤ (v.length - 1) / CHUNK_SIZE * CHUNK_SIZE + CHUNK_SIZE := by
    rw [hCS]
    omega
  rw [encodeBinary_chunks v hv]
  refine splitChunks_wire _ _ ?_ (length_flatten_wire_ge _)
  intro c hc
  rw [List.mem_append, List.mem_singleton] at hc
  rcases hc with hc | rfl
  · obtain ⟨-, h2, h3⟩ := mem_contChunks _ v (by omega) c hc
    rw [h2, h3]
    exact ⟨rfl, by decide⟩
  · refine ⟨rfl, ?_⟩
    simp only [finalChunk, List.length_drop]
    omega

/-- The ceiling of `n / 32768` by integer division. -/
theorem ceil_div_chunk (n : Nat) : ⌈(n : ℚ) / 32768⌉₊ = (n + 32767) / 32768 := by
  rcases Nat.eq_zero_or_pos n with rfl | hn
  · simp
  · have hk : (n + 32767) / 32768 ≠ 0 := by omega
    rw [Nat.ceil_eq_iff hk]
    constructor
    · rw [lt_div_iff₀ (by norm_num)]
      have h : ((n + 32767) / 32768 - 1) * 32768 < n := by omega
      exact_mod_cast h
    · rw [div_le_iff₀ (by norm_num)]
      have h : n ≤ (n + 32767) / 32768 * 32768 := by omega
      exact_mod_cast h

/-- C1: for every byte sequence `b`, `encodeBinary` (which is what `Encode` runs on a byte
slice) succeeds, its output splits into chunks of a tag byte, a 2-byte big-endian length
header `n` and `n` payload bytes, and the payloads of those chunks, concatenated in
order, are `b`. -/
theorem encodeBinary_payload_roundtrip (b : List Nat) :
    ∃ cs : List Chunk, (encodeBinary specPacker b).2 = none ∧
      Encode specPacker (.binary b) = encodeBinary specPacker b ∧
      binaryChunks (encodeBinary specPacker b).1 = some cs ∧
      (cs.map Chunk.payload).flatten = b := by
  rcases eq_or_ne b [] with rfl | hb
  · exact ⟨[⟨0x42, 0, []⟩], by decide, by decide, by decide, by decide⟩
  · refine ⟨_, ?_, by rw [Encode], binaryChunks_encodeBinary b hb, ?_⟩
    · rw [encodeBinary_chunks b hb]
    · rw [List.map_append, List.flatten_append, flatten_payload_contChunks]
      simp [finalChunk]

/-- C2: for every byte sequence `b`, the output of `encodeBinary` is exactly
`ceil(len(b)/32768)` chunks, and one chunk when `b` is empty; every chunk but the last has
tag `'b'`, length header `0x8000` and 32768 payload bytes; the last has tag `'B'` and a
length header equal to the number of bytes left for it, which is its payload length, at
most 32768, and 0 for the empty input. -/
theorem encodeBinary_chunk_structure (b : List Nat) :
    ∃ cs : List Chunk, binaryChunks (encodeBinary specPacker b).1 = some cs ∧
      cs.length = max 1 ⌈(b.length : ℚ) / 32768⌉₊ ∧
      (∀ c ∈ cs.dropLast, c.tag = 0x62 ∧ c.len = 0x8000 ∧ c.payload.length = 32768) ∧
      ∃ last : Chunk, cs.getLast? = some last ∧ last.tag = 0x42 ∧
        last.len = last.payload.length ∧
        last.len = b.length - 32768 * (cs.length - 1) ∧ last.len ≤ 32768 ∧
        (b = [] → last.len = 0) := by
  have hCS : CHUNK_SIZE = 32768 := rfl
  rcases eq_or_ne b [] with rfl | hb
  · refine ⟨[⟨0x42, 0, []⟩], by decide, ?_, by simp, ⟨0x42, 0, []⟩, by simp, rfl, rfl,
      by simp, by simp, fun _ => rfl⟩
    simp
  · have hpos : 0 < b.length := List.length_pos.mpr hb
    refine ⟨_, binaryChunks_encodeBinary b hb, ?_, ?_, finalChunk ((b.length - 1) / CHUNK_SIZE) b,
      List.getLast?_concat _, rfl, rfl, ?_, ?_, fun h => absurd h hb⟩
    · rw [ceil_div_chunk, List.length_append, length_contChunks, List.length_singleton, hCS]
      omega
    · intro c hc
      rw [List.dropLast_concat] at hc
      exact mem_contChunks _ b (by rw [hCS]; omega) c hc
    · simp only [finalChunk, List.length_drop, List.length_append, length_contChunks,
        List.length_singleton, hCS]
      omega
    · simp only [finalChunk, List.length_drop, hCS]
      omega

theorem encodeBinary_chunk_structure_witness :
    ∃ cs : List Chunk, binaryChunks (encodeBinary specPacker [1, 2, 3]).1 = some cs ∧
      cs.length = max 1 ⌈(([1, 2, 3] : List Nat).length : ℚ) / 32768⌉₊ ∧
      (∀ c ∈ cs.dropLast, c.tag = 0x62 ∧ c.len = 0x8000 ∧ c.payload.length = 32768) ∧
      ∃ last : Chunk, cs.getLast? = some last ∧ last.tag = 0x42 ∧
        last.len = last.payload.length ∧
        last.len = ([1, 2, 3] : List Nat).length - 32768 * (cs.length - 1) ∧
        last.len ≤ 32768 ∧ (([1, 2, 3] : List Nat) = [] → last.len = 0) :=
  encodeBinary_chunk_structure [1, 2, 3]

/-! ## UTF-8 decoding -/

theorem first_ascii (c : Nat) (h : c < 0x80) : first c = 0xF0 := by
  unfold first
  rw [if_pos h]

theorem first_invalid (c : Nat) (h : 0x80 ≤ c ∧ c < 0xC2 ∨ 0xF4 < c) : first c = 0xF1 := by
  unfold first
  rcases h with h | h
  · rw [if_neg (by omega), if_pos (by omega)]
  · have hlt : ∀ k, k ≤ 0xF4 → ¬ c < k := fun k hk => by omega
    have hne : ∀ k, k ≤ 0xF4 → ¬ c = k := fun k hk => by omega
    simp only [if_neg (hlt _ (by decide : 0x80 ≤ 0xF4)), if_neg (hlt _ (by decide : 0xC2 ≤ 0xF4)),
      if_neg (hlt _ (by decide : 0xE0 ≤ 0xF4)), if_neg (hlt _ (by decide : 0xED ≤ 0xF4)),
      if_neg (hlt _ (by decide : 0xF0 ≤ 0xF4)), if_neg (hlt _ (le_refl 0xF4)),
      if_neg (hne _ (by decide : 0xE0 ≤ 0xF4)), if_neg (hne _ (by decide : 0xED ≤ 0xF4)),
      if_neg (hne _ (by decide : 0xF0 ≤ 0xF4)), if_neg (hne _ (le_refl 0xF4))]

theorem first_two (c : Nat) (h : 0xC2 ≤ c ∧ c < 0xE0) : first c = 0x02 := by
  unfold first
  rw [if_neg (by omega), if_neg (by omega), if_pos (by omega)]

theorem first_three (c : Nat) (h : 0xE0 ≤ c ∧ c < 0xF0) :
    first c = if c = 0xE0 then 0x13 else if c = 0xED then 0x23 else 0x03 := by
  unfold first
  rw [if_neg (by omega), if_neg (by omega), if_neg (by omega)]
  by_cases h0 : c = 0xE0
  · rw [if_pos h0, if_pos h0]
  · rw [if_neg h0, if_neg h0]
    by_cases h1 : c < 0xED
    · rw [if_pos h1, if_neg (by omega)]
    · rw [if_neg h1]
      by_cases h2 : c = 0xED
      · rw [if_pos h2, if_pos h2]
      · rw [if_neg h2, if_neg h2, if_pos (by omega)]

theorem first_four (c : Nat) (h : 0xF0 ≤ c ∧ c ≤ 0xF4) :
    first c = if c = 0xF0 then 0x34 else if c = 0xF4 then 0x44 else 0x04 := by
  unfold first
  have hlt : ∀ k, k ≤ 0xF0 → ¬ c < k := fun k hk => by omega
  have hne : ∀ k, k < 0xF0 → ¬ c = k := fun k hk => by omega
  simp only [if_neg (hlt _ (by decide : 0x80 ≤ 0xF0)), if_neg (hlt _ (by decide : 0xC2 ≤ 0xF0)),
    if_neg (hlt _ (by decide : 0xE0 ≤ 0xF0)), if_neg (hlt _ (by decide : 0xED ≤ 0xF0)),
    if_neg (hlt _ (le_refl 0xF0)), if_neg (hne _ (by decide : 0xE0 < 0xF0)),
    if_neg (hne _ (by decide : 0xED < 0xF0))]
  by_cases h0 : c = 0xF0
  · rw [if_pos h0, if_pos h0]
  · rw [if_neg h0, if_neg h0]
    by_cases h1 : c < 0xF4
    · rw [if_pos h1, if_neg (by omega)]
    · rw [if_neg h1, if_pos (by omega), if_pos (by omega)]

theorem DecodeRune_cons_eq (p0 : Nat) (t : List Nat) (x : Nat) (hx : first p0 = x) :
    DecodeRune (p0 :: t) =
      if x ≥ 0xF0 then (if x = 0xF1 then RuneError else p0, 1)
      else if (p0 :: t).length < x % 8 then (RuneError, 1)
      else if t.getD 0 0 < (acceptRanges (x / 16)).1 ∨ (acceptRanges (x / 16)).2 < t.getD 0 0
        then (RuneError, 1)
      else if x % 8 ≤ 2 then (p0 % 32 * 64 + t.getD 0 0 % 64, 2)
      else if t.getD 1 0 < 0x80 ∨ 0xBF < t.getD 1 0 then (RuneError, 1)
      else if x % 8 ≤ 3 then (p0 % 16 * 4096 + t.getD 0 0 % 64 * 64 + t.getD 1 0 % 64, 3)
      else if t.getD 2 0 < 0x80 ∨ 0xBF < t.getD 2 0 then (RuneError, 1)
      else (p0 % 8 * 262144 + t.getD 0 0 % 64 * 4096 + t.getD 1 0 % 64 * 64 +
        t.getD 2 0 % 64, 4) := by
  subst hx
  rfl

theorem DecodeRune_ascii (p0 : Nat) (t : List Nat) (h : p0 < 0x80) :
    DecodeRune (p0 :: t) = (p0, 1) := by
  rw [DecodeRune_cons_eq p0 t _ (first_ascii p0 h)]
  simp

theorem DecodeRune_invalid (p0 : Nat) (t : List Nat)
    (h : 0x80 ≤ p0 ∧ p0 < 0xC2 ∨ 0xF4 < p0) : DecodeRune (p0 :: t) = (RuneError, 1) := by
  rw [DecodeRune_cons_eq p0 t _ (first_invalid p0 h)]
  simp

theorem DecodeRune_two_short (p0 : Nat) (h : 0xC2 ≤ p0 ∧ p0 < 0xE0) :
    DecodeRune [p0] = (RuneError, 1) := by
  rw [DecodeRune_cons_eq p0 [] _ (first_two p0 h)]
  simp

theorem DecodeRune_two (p0 b1 : Nat) (t : List Nat) (h : 0xC2 ≤ p0 ∧ p0 < 0xE0) :
    DecodeRune (p0 :: b1 :: t) =
      if b1 < 0x80 ∨ 0xBF < b1 then (RuneError, 1) else (p0 % 32 * 64 + b1 % 64, 2) := by
  rw [DecodeRune_cons_eq p0 _ _ (first_two p0 h)]
  simp [acceptRanges]

theorem DecodeRune_three_short (p0 : Nat) (t : List Nat) (h : 0xE0 ≤ p0 ∧ p0 < 0xF0)
    (ht : t.length < 2) : DecodeRune (p0 :: t) = (RuneError, 1) := by
  rw [DecodeRune_cons_eq p0 _ _ (first_three p0 h)]
  have h8 : (if p0 = 0xE0 then 0x13 else if p0 = 0xED then 0x23 else 0x03) % 8 = 3 := by
    split_ifs <;> rfl
  have hF : ¬ (if p0 = 0xE0 then 0x13 else if p0 = 0xED then 0x23 else 0x03) ≥ 0xF0 := by
    split_ifs <;> decide
  rw [if_neg hF, h8, if_pos (by simp only [List.length_cons]; omega)]

theorem DecodeRune_three (p0 b1 b2 : Nat) (t : List Nat) (h : 0xE0 ≤ p0 ∧ p0 < 0xF0) :
    DecodeRune (p0 :: b1 :: b2 :: t) =
      if b1 < (if p0 = 0xE0 then 0xA0 else 0x80) ∨ (if p0 = 0xED then 0x9F else 0xBF) < b1
        then (RuneError, 1)
      else if b2 < 0x80 ∨ 0xBF < b2 then (RuneError, 1)
      else (p0 % 16 * 4096 + b1 % 64 * 64 + b2 % 64, 3) := by
  rw [DecodeRune_cons_eq p0 _ _ (first_three p0 h)]
  by_cases h0 : p0 = 0xE0
  · simp [acceptRanges, h0]
  · by_cases h1 : p0 = 0xED
    · simp [acceptRanges, h1]
    · simp [acceptRanges, h0, h1]

theorem DecodeRune_four_short (p0 : Nat) (t : List Nat) (h : 0xF0 ≤ p0 ∧ p0 ≤ 0xF4)
    (ht : t.length < 3) : DecodeRune (p0 :: t) = (RuneError, 1) := by
  rw [DecodeRune_cons_eq p0 _ _ (first_four p0 h)]
  have h8 : (if p0 = 0xF0 then 0x34 else if p0 = 0xF4 then 0x44 else 0x04) % 8 = 4 := by
    split_ifs <;> rfl
  have hF : ¬ (if p0 = 0xF0 then 0x34 else if p0 = 0xF4 then 0x44 else 0x04) ≥ 0xF0 := by
    split_ifs <;> decide
  rw [if_neg hF, h8, if_pos (by simp only [List.length_cons]; omega)]

theorem DecodeRune_four (p0 b1 b2 b3 : Nat) (t : List Nat) (h : 0xF0 ≤ p0 ∧ p0 ≤ 0xF4) :
    DecodeRune (p0 :: b1 :: b2 :: b3 :: t) =
      if b1 < (if p0 = 0xF0 then 0x90 else 0x80) ∨ (if p0 = 0xF4 then 0x8F else 0xBF) < b1
        then (RuneError, 1)
      else if b2 < 0x80 ∨ 0xBF < b2 then (RuneError, 1)
      else if b3 < 0x80 ∨ 0xBF < b3 then (RuneError, 1)
      else (p0 % 8 * 262144 + b1 % 64 * 4096 + b2 % 64 * 64 + b3 % 64, 4) := by
  rw [DecodeRune_cons_eq p0 _ _ (first_four p0 h)]
  by_cases h0 : p0 = 0xF0
  · simp [acceptRanges, h0]
  · by_cases h1 : p0 = 0xF4
    · simp [acceptRanges, h1]
    · simp [acceptRanges, h0, h1]

/-- A non-empty buffer gives a rune of one to four bytes, no more than the buffer has. -/
theorem DecodeRune_size (p : List Nat) (hp : p ≠ []) :
    1 ≤ (DecodeRune p).2 ∧ (DecodeRune p).2 ≤ p.length := by
  rcases p with _ | ⟨p0, t⟩
  · exact absurd rfl hp
  · have hr : p0 < 0x80 ∨ (0x80 ≤ p0 ∧ p0 < 0xC2 ∨ 0xF4 < p0) ∨ (0xC2 ≤ p0 ∧ p0 < 0xE0) ∨
        (0xE0 ≤ p0 ∧ p0 < 0xF0) ∨ (0xF0 ≤ p0 ∧ p0 ≤ 0xF4) := by omega
    rcases hr with h | h | h | h | h
    · rw [DecodeRune_ascii p0 t h]
      simp
    · rw [DecodeRune_invalid p0 t h]
      simp
    · rcases t with _ | ⟨b1, t⟩
      · rw [DecodeRune_two_short p0 h]
        simp
      · rw [DecodeRune_two p0 b1 t h]
        split_ifs <;> simp
    · rcases t with _ | ⟨b1, _ | ⟨b2, t⟩⟩
      · rw [DecodeRune_three_short p0 _ h (by simp)]
        simp
      · rw [DecodeRune_three_short p0 _ h (by simp)]
        simp
      · rw [DecodeRune_three p0 b1 b2 t h]
        split_ifs <;> simp
    · rcases t with _ | ⟨b1, _ | ⟨b2, _ | ⟨b3, t⟩⟩⟩
      · rw [DecodeRune_four_short p0 _ h (by simp)]
        simp
      · rw [DecodeRune_four_short p0 _ h (by simp)]
        simp
      · rw [DecodeRune_four_short p0 _ h (by simp)]
        simp
      · rw [DecodeRune_four p0 b1 b2 b3 t h]
        split_ifs <;> simp

/-- A rune read without error is written back as the bytes it was read from. -/
theorem encodeRune_DecodeRune (p : List Nat) (hp : p ≠ [])
    (hok : DecodeRune p ≠ (RuneError, 1)) :
    encodeRune (DecodeRune p).1 = p.take (DecodeRune p).2 := by
  rcases p with _ | ⟨p0, t⟩
  · exact absurd rfl hp
  · have hr : p0 < 0x80 ∨ (0x80 ≤ p0 ∧ p0 < 0xC2 ∨ 0xF4 < p0) ∨ (0xC2 ≤ p0 ∧ p0 < 0xE0) ∨
        (0xE0 ≤ p0 ∧ p0 < 0xF0) ∨ (0xF0 ≤ p0 ∧ p0 ≤ 0xF4) := by omega
    rcases hr with h | h | h | h | h
    · rw [DecodeRune_ascii p0 t h]
      unfold encodeRune
      rw [if_pos (by omega)]
      rfl
    · exact absurd (DecodeRune_invalid p0 t h) hok
    · rcases t with _ | ⟨b1, t⟩
      · exact absurd (DecodeRune_two_short p0 h) hok
      · rw [DecodeRune_two p0 b1 t h] at hok ⊢
        by_cases hc : b1 < 0x80 ∨ 0xBF < b1
        · rw [if_pos hc] at hok
          exact absurd rfl hok
        · rw [if_neg hc]
          unfold encodeRune
          rw [if_neg (by omega), if_pos (by omega)]
          simp only [List.take_succ_cons, List.take_zero, List.cons.injEq, and_true]
          omega
    · rcases t with _ | ⟨b1, _ | ⟨b2, t⟩⟩
      · exact absurd (DecodeRune_three_short p0 _ h (by simp)) hok
      · exact absurd (DecodeRune_three_short p0 _ h (by simp)) hok
      · rw [DecodeRune_three p0 b1 b2 t h] at hok ⊢
        by_cases hc1 : b1 < (if p0 = 0xE0 then 0xA0 else 0x80) ∨
            (if p0 = 0xED then 0x9F else 0xBF) < b1
        · rw [if_pos hc1] at hok
          exact absurd rfl hok
        · rw [if_neg hc1] at hok ⊢
          by_cases hc2 : b2 < 0x80 ∨ 0xBF < b2
          · rw [if_pos hc2] at hok
            exact absurd rfl hok
          · rw [if_neg hc2]
            have hb1 : 0x80 ≤ b1 ∧ b1 ≤ 0xBF ∧ (p0 = 0xE0 → 0xA0 ≤ b1) ∧
                (p0 = 0xED → b1 ≤ 0x9F) := by
              split_ifs at hc1 <;> omega
            unfold encodeRune
            rw [if_neg (by omega), if_neg (by omega), if_neg (by omega), if_pos (by omega)]
            simp only [List.take_succ_cons, List.take_zero, List.cons.injEq, and_true]
            omega
    · rcases t with _ | ⟨b1, _ | ⟨b2, _ | ⟨b3, t⟩⟩⟩
      · exact absurd (DecodeRune_four_short p0 _ h (by simp)) hok
      · exact absurd (DecodeRune_four_short p0 _ h (by simp)) hok
      · exact absurd (DecodeRune_four_short p0 _ h (by simp)) hok
      · rw [DecodeRune_four p0 b1 b2 b3 t h] at hok ⊢
        by_cases hc1 : b1 < (if p0 = 0xF0 then 0x90 else 0x80) ∨
            (if p0 = 0xF4 then 0x8F else 0xBF) < b1
        · rw [if_pos hc1] at hok
          exact absurd rfl hok
        · rw [if_neg hc1] at hok ⊢
          by_cases hc2 : b2 < 0x80 ∨ 0xBF < b2
          · rw [if_pos hc2] at hok
            exact absurd rfl hok
          · rw [if_neg hc2] at hok ⊢
            by_cases hc3 : b3 < 0x80 ∨ 0xBF < b3
            · rw [if_pos hc3] at hok
              exact absurd rfl hok
            · rw [if_neg hc3]
              have hb1 : 0x80 ≤ b1 ∧ b1 ≤ 0xBF ∧ (p0 = 0xF0 → 0x90 ≤ b1) ∧
                  (p0 = 0xF4 → b1 ≤ 0x8F) := by
                split_ifs at hc1 <;> omega
              unfold encodeRune
              rw [if_neg (by omega), if_neg (by omega), if_neg (by omega), if_neg (by omega)]
              simp only [List.take_succ_cons, List.take_zero, List.cons.injEq, and_true]
              omega

theorem encodeRune_ne_nil (r : Nat) : encodeRune r ≠ [] := by
  unfold encodeRune
  split_ifs <;> simp

/-- The bytes written for a rune are read back as one rune, without error. -/
theorem DecodeRune_encodeRune (r : Nat) (rest : List Nat) :
    (DecodeRune (encodeRune r ++ rest)).2 = (encodeRune r).length ∧
    DecodeRune (encodeRune r ++ rest) ≠ (RuneError, 1) := by
  unfold encodeRune
  by_cases h1 : r ≤ 0x7F
  · rw [if_pos h1]
    simp only [List.singleton_append, List.length_singleton]
    rw [DecodeRune_ascii r rest (by omega)]
    refine ⟨rfl, ?_⟩
    simp only [ne_eq, Prod.mk.injEq, and_true, RuneError]
    omega
  · rw [if_neg h1]
    by_cases h2 : r ≤ 0x7FF
    · rw [if_pos h2]
      simp only [List.cons_append, List.nil_append, List.length_cons, List.length_nil]
      rw [DecodeRune_two _ _ _ (by omega), if_neg (by omega)]
      simp
    · rw [if_neg h2]
      by_cases h3 : r > 0x10FFFF ∨ (0xD800 ≤ r ∧ r ≤ 0xDFFF)
      · rw [if_pos h3]
        simp only [List.cons_append, List.nil_append, List.length_cons, List.length_nil]
        rw [DecodeRune_three _ _ _ _ (by omega)]
        simp
      · rw [if_neg h3]
        by_cases h4 : r ≤ 0xFFFF
        · rw [if_pos h4]
          simp only [List.cons_append, List.nil_append, List.length_cons, List.length_nil]
          rw [DecodeRune_three _ _ _ _ (by omega), if_neg (by split_ifs <;> omega),
            if_neg (by omega)]
          simp
        · rw [if_neg h4]
          simp only [List.cons_append, List.nil_append, List.length_cons, List.length_nil]
          rw [DecodeRune_four _ _ _ _ _ (by omega), if_neg (by split_ifs <;> omega),
            if_neg (by omega), if_neg (by omega)]
          simp

/-! ## Runes of a buffer -/

theorem length_drop_DecodeRune (c : Nat) (t : List Nat) :
    ((c :: t).drop (DecodeRune (c :: t)).2).length ≤ t.length := by
  have h := DecodeRune_size (c :: t) (List.cons_ne_nil _ _)
  simp only [List.length_drop, List.length_cons] at h ⊢
  omega

theorem rune_induction {P : List Nat → Prop} (hnil : P [])
    (hstep : ∀ c t, P ((c :: t).drop (DecodeRune (c :: t)).2) → P (c :: t)) (p : List Nat) :
    P p := by
  suffices h : ∀ n (p : List Nat), p.length ≤ n → P p from h _ p le_rfl
  intro n
  induction n with
  | zero =>
    intro p hp
    rcases p with _ | ⟨c, t⟩
    · exact hnil
    · simp at hp
  | succ n ih =>
    intro p hp
    rcases p with _ | ⟨c, t⟩
    · exact hnil
    · refine hstep c t (ih _ ?_)
      have h := length_drop_DecodeRune c t
      simp only [List.length_cons] at hp
      omega

theorem ReadRune_cons (c : Nat) (t : List Nat) :
    ReadRune (c :: t) = ((DecodeRune (c :: t)).1, (DecodeRune (c :: t)).2, none,
      (c :: t).drop (DecodeRune (c :: t)).2) := by
  unfold ReadRune
  by_cases h : c < 0x80
  · simp only [if_pos h, DecodeRune_ascii c t h, List.drop_succ_cons, List.drop_zero]
  · simp only [if_neg h]

theorem decodeRunes_nil (n : Nat) : decodeRunes n [] = [] := by
  cases n <;> rfl

theorem dropRunes_nil (n : Nat) : dropRunes n [] = [] := by
  cases n <;> rfl

theorem encodeRunes_cons (r : Nat) (rs : List Nat) :
    encodeRunes (r :: rs) = encodeRune r ++ encodeRunes rs := by
  simp [encodeRunes]

theorem encodeRunes_append (rs qs : List Nat) :
    encodeRunes (rs ++ qs) = encodeRunes rs ++ encodeRunes qs := by
  simp [encodeRunes]

/-- The closure `sChunk` reads `n` runes and appends their UTF-8 bytes. -/
theorem sChunk_eq (n : Nat) : ∀ (sBuf b : List Nat),
    sChunk n (sBuf, b) = (dropRunes n sBuf, b ++ encodeRunes (decodeRunes n sBuf)) := by
  induction n with
  | zero =>
    intro sBuf b
    simp [sChunk, dropRunes, decodeRunes, encodeRunes]
  | succ n ih =>
    intro sBuf b
    rcases sBuf with _ | ⟨c, t⟩
    · simp [sChunk, ReadRune, ih, dropRunes, decodeRunes, dropRunes_nil, decodeRunes_nil,
        encodeRunes]
    · have hs := (DecodeRune_size (c :: t) (List.cons_ne_nil _ _)).1
      rw [sChunk, ReadRune_cons]
      simp only
      rw [if_pos ⟨by omega, trivial⟩, ih]
      simp [dropRunes, decodeRunes, encodeRunes_cons]

theorem runeCountFuel_stable (f : Nat) : ∀ (g : Nat) (p : List Nat),
    p.length ≤ f → p.length ≤ g → runeCountFuel f p = runeCountFuel g p := by
  induction f with
  | zero =>
    intro g p hf _
    rcases p with _ | ⟨c, t⟩
    · cases g <;> rfl
    · simp at hf
  | succ f ih =>
    intro g p hf hg
    rcases p with _ | ⟨c, t⟩
    · cases g <;> rfl
    · obtain ⟨g, rfl⟩ : ∃ g', g = g' + 1 := ⟨g - 1, by simp at hg; omega⟩
      have h := length_drop_DecodeRune c t
      simp only [List.length_cons] at hf hg
      simp only [runeCountFuel]
      rw [ih g _ (by omega) (by omega)]

theorem RuneCount_nil : RuneCount [] = 0 := rfl

theorem RuneCount_cons (c : Nat) (t : List Nat) :
    RuneCount (c :: t) = 1 + RuneCount ((c :: t).drop (DecodeRune (c :: t)).2) := by
  have h := length_drop_DecodeRune c t
  unfold RuneCount
  simp only [List.length_cons, runeCountFuel]
  rw [runeCountFuel_stable t.length _ _ h le_rfl]

theorem RuneCount_le_length (p : List Nat) : RuneCount p ≤ p.length := by
  induction p using rune_induction with
  | hnil => simp [RuneCount_nil]
  | hstep c t ih =>
    have h := length_drop_DecodeRune c t
    rw [RuneCount_cons]
    simp only [List.length_cons]
    omega

theorem RuneCount_eq_zero (p : List Nat) (h : RuneCount p = 0) : p = [] := by
  rcases p with _ | ⟨c, t⟩
  · rfl
  · rw [RuneCount_cons] at h
    omega

theorem validFuel_stable (f : Nat) : ∀ (g : Nat) (p : List Nat),
    p.length ≤ f → p.length ≤ g → validFuel f p = validFuel g p := by
  induction f with
  | zero =>
    intro g p hf _
    rcases p with _ | ⟨c, t⟩
    · cases g <;> rfl
    · simp at hf
  | succ f ih =>
    intro g p hf hg
    rcases p with _ | ⟨c, t⟩
    · cases g <;> rfl
    · obtain ⟨g, rfl⟩ : ∃ g', g = g' + 1 := ⟨g - 1, by simp at hg; omega⟩
      have h := length_drop_DecodeRune c t
      simp only [List.length_cons] at hf hg
      simp only [validFuel]
      rw [ih g _ (by omega) (by omega)]

theorem ValidString_nil : ValidString [] = true := rfl

theorem ValidString_cons (c : Nat) (t : List Nat) :
    ValidString (c :: t) = (decide (DecodeRune (c :: t) ≠ (RuneError, 1)) &&
      ValidString ((c :: t).drop (DecodeRune (c :: t)).2)) := by
  have h := length_drop_DecodeRune c t
  unfold ValidString
  simp only [List.length_cons, validFuel]
  rw [validFuel_stable t.length _ _ h le_rfl]

theorem RuneCount_dropRunes (n : Nat) : ∀ p : List Nat,
    RuneCount (dropRunes n p) = RuneCount p - n := by
  induction n with
  | zero =>
    intro p
    simp [dropRunes]
  | succ n ih =>
    intro p
    rcases p with _ | ⟨c, t⟩
    · simp [dropRunes, RuneCount_nil]
    · rw [dropRunes, ih, RuneCount_cons c t]
      omega

theorem dropRunes_RuneCount (p : List Nat) : dropRunes (RuneCount p) p = [] := by
  apply RuneCount_eq_zero
  rw [RuneCount_dropRunes]
  omega

theorem dropRunes_add (m n : Nat) : ∀ p : List Nat,
    dropRunes (m + n) p = dropRunes n (dropRunes m p) := by
  induction m with
  | zero =>
    intro p
    simp [dropRunes]
  | succ m ih =>
    intro p
    rcases p with _ | ⟨c, t⟩
    · rw [dropRunes_nil, dropRunes_nil, dropRunes_nil]
    · rw [show m + 1 + n = (m + n) + 1 by omega, dropRunes, dropRunes, ih]

theorem decodeRunes_add (m n : Nat) : ∀ p : List Nat,
    decodeRunes (m + n) p = decodeRunes m p ++ decodeRunes n (dropRunes m p) := by
  induction m with
  | zero =>
    intro p
    simp [dropRunes, decodeRunes]
  | succ m ih =>
    intro p
    rcases p with _ | ⟨c, t⟩
    · rw [dropRunes_nil, decodeRunes_nil, decodeRunes_nil, decodeRunes_nil]
      rfl
    · rw [show m + 1 + n = (m + n) + 1 by omega, decodeRunes, decodeRunes, dropRunes, ih]
      rfl

theorem length_decodeRunes (n : Nat) : ∀ p : List Nat, n ≤ RuneCount p →
    (decodeRunes n p).length = n := by
  induction n with
  | zero =>
    intro p _
    rfl
  | succ n ih =>
    intro p hp
    rcases p with _ | ⟨c, t⟩
    · simp [RuneCount_nil] at hp
    · rw [RuneCount_cons] at hp
      rw [decodeRunes, List.length_cons, ih _ (by omega)]

theorem decodeRunes_of_ge (n : Nat) : ∀ p : List Nat, RuneCount p ≤ n →
    decodeRunes n p = runes p := by
  intro p hp
  obtain ⟨d, rfl⟩ : ∃ d, n = RuneCount p + d := ⟨n - RuneCount p, by omega⟩
  rw [decodeRunes_add, dropRunes_RuneCount, decodeRunes_nil, List.append_nil, runes]

/-! ## Text chunks -/

theorem drop_DecodeRune_encodeRune (r : Nat) (rest : List Nat) :
    (encodeRune r ++ rest).drop (DecodeRune (encodeRune r ++ rest)).2 = rest := by
  rw [(DecodeRune_encodeRune r rest).1, List.drop_left]

theorem encodeRune_append_ne_nil (r : Nat) (rest : List Nat) : encodeRune r ++ rest ≠ [] := by
  simp [encodeRune_ne_nil]

theorem RuneCount_of_ne_nil (p : List Nat) (hp : p ≠ []) :
    RuneCount p = 1 + RuneCount (p.drop (DecodeRune p).2) := by
  rcases p with _ | ⟨c, t⟩
  · exact absurd rfl hp
  · exact RuneCount_cons c t

theorem ValidString_of_ne_nil (p : List Nat) (hp : p ≠ []) :
    ValidString p = (decide (DecodeRune p ≠ (RuneError, 1)) &&
      ValidString (p.drop (DecodeRune p).2)) := by
  rcases p with _ | ⟨c, t⟩
  · exact absurd rfl hp
  · exact ValidString_cons c t

theorem runeBytes_of_ne_nil (n : Nat) (p : List Nat) (hp : p ≠ []) :
    runeBytes (n + 1) p =
      (runeBytes n (p.drop (DecodeRune p).2)).map (fun m => (DecodeRune p).2 + m) := by
  rcases p with _ | ⟨c, t⟩
  · exact absurd rfl hp
  · rfl

theorem runeBytes_encodeRunes (rs : List Nat) : ∀ rest : List Nat,
    runeBytes rs.length (encodeRunes rs ++ rest) = some (encodeRunes rs).length := by
  induction rs with
  | nil =>
    intro rest
    rfl
  | cons r rs ih =>
    intro rest
    rw [encodeRunes_cons, List.append_assoc, List.length_cons,
      runeBytes_of_ne_nil _ _ (encodeRune_append_ne_nil _ _), drop_DecodeRune_encodeRune, ih,
      (DecodeRune_encodeRune r _).1]
    simp

theorem RuneCount_encodeRunes (rs : List Nat) : RuneCount (encodeRunes rs) = rs.length := by
  induction rs with
  | nil => rfl
  | cons r rs ih =>
    rw [encodeRunes_cons, RuneCount_of_ne_nil _ (encodeRune_append_ne_nil _ _),
      drop_DecodeRune_encodeRune, ih, List.length_cons]
    omega

theorem ValidString_encodeRunes (rs : List Nat) : ValidString (encodeRunes rs) = true := by
  induction rs with
  | nil => rfl
  | cons r rs ih =>
    rw [encodeRunes_cons, ValidString_of_ne_nil _ (encodeRune_append_ne_nil _ _),
      drop_DecodeRune_encodeRune, ih]
    simpa using (DecodeRune_encodeRune r (encodeRunes rs)).2

/-- Well-formed text is read and written back unchanged. -/
theorem encodeRunes_decodeRunes (n : Nat) : ∀ p : List Nat, ValidString p = true →
    encodeRunes (decodeRunes n p) ++ dropRunes n p = p := by
  induction n with
  | zero =>
    intro p _
    simp [decodeRunes, dropRunes, encodeRunes]
  | succ n ih =>
    intro p hp
    rcases p with _ | ⟨c, t⟩
    · simp [decodeRunes, dropRunes, encodeRunes]
    · rw [ValidString_cons, Bool.and_eq_true, decide_eq_true_eq] at hp
      rw [decodeRunes, dropRunes, encodeRunes_cons,
        encodeRune_DecodeRune _ (List.cons_ne_nil _ _) hp.1, List.append_assoc, ih _ hp.2,
        List.take_append_drop]

theorem encodeRunes_runes (p : List Nat) (hp : ValidString p = true) :
    encodeRunes (runes p) = p := by
  have h := encodeRunes_decodeRunes (RuneCount p) p hp
  rwa [dropRunes_RuneCount, List.append_nil] at h

theorem length_runes (p : List Nat) : (runes p).length = RuneCount p :=
  length_decodeRunes _ _ le_rfl

theorem stringLoop_nil (pk : Packer) (fuel : Nat) (b : List Nat) :
    stringLoop pk fuel [] b = some (b, none) := by
  cases fuel <;> simp [stringLoop, RuneCount_nil]

theorem length_textCont (k : Nat) (p : List Nat) : (textCont k p).length = k := by
  induction k generalizing p with
  | zero => rfl
  | succ k ih => simp [textCont, ih]

theorem flatten_payload_textCont (k : Nat) : ∀ p : List Nat,
    ((textCont k p).map Chunk.payload).flatten =
      encodeRunes (decodeRunes (k * CHUNK_SIZE) p) := by
  induction k with
  | zero =>
    intro p
    simp [textCont, decodeRunes, encodeRunes]
  | succ k ih =>
    intro p
    rw [textCont, List.map_cons, List.flatten_cons, ih,
      show (k + 1) * CHUNK_SIZE = CHUNK_SIZE + k * CHUNK_SIZE by ring, decodeRunes_add,
      encodeRunes_append]

theorem mem_textCont (k : Nat) : ∀ (p : List Nat), k * CHUNK_SIZE ≤ RuneCount p →
    ∀ c ∈ textCont k p, c.tag = 0x73 ∧ c.len = CHUNK_SIZE ∧
      ∃ rs : List Nat, c.payload = encodeRunes rs ∧ rs.length = CHUNK_SIZE := by
  induction k with
  | zero =>
    intro p _ c hc
    simp [textCont] at hc
  | succ k ih =>
    intro p hk c hc
    have hmul : (k + 1) * CHUNK_SIZE = k * CHUNK_SIZE + CHUNK_SIZE := by ring
    rw [textCont, List.mem_cons] at hc
    rcases hc with rfl | hc
    · exact ⟨rfl, rfl, _, rfl, length_decodeRunes _ _ (by omega)⟩
    · refine ih (dropRunes CHUNK_SIZE p) ?_ c hc
      rw [RuneCount_dropRunes]
      omega

/-- What the loop of `encodeString` appends for a buffer of `k` full chunks and a rest. -/
theorem stringLoop_eq (k : Nat) : ∀ (fuel : Nat) (p b : List Nat),
    k * CHUNK_SIZE < RuneCount p → RuneCount p ≤ (k + 1) * CHUNK_SIZE → k + 1 ≤ fuel →
    stringLoop specPacker fuel p b =
      some (b ++ ((textCont k p).map Chunk.wire).flatten ++ (textFinal k p).wire, none) := by
  have hCS : CHUNK_SIZE = 32768 := rfl
  induction k with
  | zero =>
    intro fuel p b h1 h2 h3
    obtain ⟨f, rfl⟩ : ∃ f, fuel = f + 1 := ⟨fuel - 1, by omega⟩
    have hne : ¬ RuneCount p = 0 := by omega
    have hle : ¬ RuneCount p > CHUNK_SIZE := by omega
    rw [stringLoop, if_neg hne, if_neg hle, specPacker_PackUint16]
    simp only
    rw [sChunk_eq]
    simp only
    rw [dropRunes_RuneCount, stringLoop_nil]
    have hmod : toUint16 (RuneCount p) = RuneCount p := by
      unfold toUint16
      omega
    simp [textCont, textFinal, Chunk.wire, hmod, dropRunes, runes]
  | succ k ih =>
    intro fuel p b h1 h2 h3
    obtain ⟨f, rfl⟩ : ∃ f, fuel = f + 1 := ⟨fuel - 1, by omega⟩
    have hmul : (k + 1) * CHUNK_SIZE = k * CHUNK_SIZE + CHUNK_SIZE := by ring
    have hmul2 : (k + 1 + 1) * CHUNK_SIZE = k * CHUNK_SIZE + CHUNK_SIZE + CHUNK_SIZE := by ring
    have hne : ¬ RuneCount p = 0 := by omega
    have hgt : RuneCount p > CHUNK_SIZE := by omega
    rw [stringLoop, if_neg hne, if_pos hgt, specPacker_PackUint16]
    simp only
    rw [sChunk_eq]
    simp only
    rw [ih f (dropRunes CHUNK_SIZE p) _ (by rw [RuneCount_dropRunes]; omega)
      (by rw [RuneCount_dropRunes]; omega) (by omega)]
    have hmod : toUint16 CHUNK_SIZE = CHUNK_SIZE := by decide
    have hfin : textFinal k (dropRunes CHUNK_SIZE p) = textFinal (k + 1) p := by
      simp only [textFinal, ← dropRunes_add]
      rw [show CHUNK_SIZE + k * CHUNK_SIZE = (k + 1) * CHUNK_SIZE by ring]
    rw [hfin]
    simp [textCont, Chunk.wire, hmod]

/-- Text chunks whose header counts the code points of their payload are read back by
`splitTextChunks`. -/
theorem splitTextChunks_wire (cs : List Chunk) : ∀ (fuel : Nat),
    (∀ c ∈ cs, c.len < 65536 ∧
      ∃ rs : List Nat, c.payload = encodeRunes rs ∧ rs.length = c.len) →
    cs.length ≤ fuel →
    splitTextChunks fuel (cs.map Chunk.wire).flatten = some cs := by
  induction cs with
  | nil =>
    intro fuel _ _
    cases fuel <;> simp [splitTextChunks]
  | cons c cs ih =>
    intro fuel hwf hfuel
    obtain ⟨f, rfl⟩ : ∃ f, fuel = f + 1 := ⟨fuel - 1, by simp at hfuel; omega⟩
    obtain ⟨hlt, rs, hpay, hlen⟩ := hwf c (List.mem_cons_self _ _)
    have ih2 := ih f (fun c hc => hwf c (List.mem_cons_of_mem _ hc))
      (by simp at hfuel; omega)
    obtain ⟨tag, len, payload⟩ := c
    simp only at hlt hpay hlen
    subst hpay hlen
    simp only [List.map_cons, List.flatten_cons, Chunk.wire, bigEndian_two, List.cons_append,
      List.nil_append, splitTextChunks]
    rw [fromBigEndian_two _ hlt, runeBytes_encodeRunes]
    simp [ih2]

theorem runes_split (m : Nat) (p : List Nat) (h : m ≤ RuneCount p) :
    decodeRunes m p ++ runes (dropRunes m p) = runes p := by
  rw [runes, RuneCount_dropRunes, ← decodeRunes_add, show m + (RuneCount p - m) = RuneCount p
    by omega, runes]

/-- The chunks `encodeString` writes for a non-empty input: `k` full ones and a final one,
where `k = (RuneCount v - 1) / CHUNK_SIZE`. -/
theorem encodeString_chunks (v : List Nat) (hv : v ≠ []) :
    encodeString specPacker v =
      (((textCont ((RuneCount v - 1) / CHUNK_SIZE) v ++
        [textFinal ((RuneCount v - 1) / CHUNK_SIZE) v]).map Chunk.wire).flatten, none) := by
  have hCS : CHUNK_SIZE = 32768 := rfl
  have hpos : 0 < RuneCount v := by
    rw [RuneCount_of_ne_nil v hv]
    omega
  have hle := RuneCount_le_length v
  have h := stringLoop_eq ((RuneCount v - 1) / CHUNK_SIZE) v.length v []
    (by rw [hCS]; omega) (by rw [hCS]; omega) (by rw [hCS]; omega)
  rw [encodeString, if_neg hv, h]
  simp

/-- The loop of `encodeString` ends within the `len(v)` rounds it is given. -/
theorem stringLoop_total (v : List Nat) :
    ∃ r, stringLoop specPacker v.length v [] = some r := by
  rcases eq_or_ne v [] with rfl | hv
  · exact ⟨_, stringLoop_nil _ _ _⟩
  · have hCS : CHUNK_SIZE = 32768 := rfl
    have hpos : 0 < RuneCount v := by
      rw [RuneCount_of_ne_nil v hv]
      omega
    have hle := RuneCount_le_length v
    exact ⟨_, stringLoop_eq ((RuneCount v - 1) / CHUNK_SIZE) v.length v []
      (by rw [hCS]; omega) (by rw [hCS]; omega) (by rw [hCS]; omega)⟩

theorem textChunks_encodeString (v : List Nat) (hv : v ≠ []) :
    textChunks (encodeString specPacker v).1 =
      some (textCont ((RuneCount v - 1) / CHUNK_SIZE) v ++
        [textFinal ((RuneCount v - 1) / CHUNK_SIZE) v]) := by
  have hCS : CHUNK_SIZE = 32768 := rfl
  have hpos : 0 < RuneCount v := by
    rw [RuneCount_of_ne_nil v hv]
    omega
  rw [encodeString_chunks v hv]
  refine splitTextChunks_wire _ _ ?_ (length_flatten_wire_ge _)
  intro c hc
  rw [List.mem_append, List.mem_singleton] at hc
  rcases hc with hc | rfl
  · obtain ⟨-, h2, rs, h3, h4⟩ := mem_textCont _ v (by rw [hCS]; omega) c hc
    exact ⟨by rw [h2]; decide, rs, h3, by rw [h4, h2]⟩
  · refine ⟨?_, _, rfl, length_runes _⟩
    simp only [textFinal, RuneCount_dropRunes, hCS]
    omega

/-- C3, as the code has it: for every text `s`, `encodeString` (which is what `Encode`
runs on a string) succeeds and its output splits into chunks of a tag, a 2-byte length
header `n` and `n` code points; every chunk payload is well-formed UTF-8 holding exactly
the code points its header counts, so no boundary falls inside a code point; the payloads
concatenated in order are the UTF-8 bytes of the code points read from `s`, each
ill-formed byte being read as U+FFFD; and when `s` is well-formed UTF-8 they are the
bytes of `s`. -/
theorem encodeString_payload_roundtrip (s : List Nat) :
    ∃ cs : List Chunk, (encodeString specPacker s).2 = none ∧
      Encode specPacker (.string s) = encodeString specPacker s ∧
      textChunks (encodeString specPacker s).1 = some cs ∧
      (∀ c ∈ cs, ValidString c.payload = true ∧ RuneCount c.payload = c.len) ∧
      (cs.map Chunk.payload).flatten = encodeRunes (runes s) ∧
      (ValidString s = true → (cs.map Chunk.payload).flatten = s) := by
  have hCS : CHUNK_SIZE = 32768 := rfl
  rcases eq_or_ne s [] with rfl | hs
  · exact ⟨[⟨0x53, 0, []⟩], by decide, by decide, by decide, by decide, by decide,
      fun _ => by decide⟩
  · have hpos : 0 < RuneCount s := by
      rw [RuneCount_of_ne_nil s hs]
      omega
    have hflat : ((textCont ((RuneCount s - 1) / CHUNK_SIZE) s ++
        [textFinal ((RuneCount s - 1) / CHUNK_SIZE) s]).map Chunk.payload).flatten =
        encodeRunes (runes s) := by
      rw [List.map_append, List.flatten_append, flatten_payload_textCont]
      simp only [List.map_cons, List.map_nil, List.flatten_cons, List.flatten_nil,
        List.append_nil, textFinal]
      rw [← encodeRunes_append, runes_split _ _ (by rw [hCS]; omega)]
    refine ⟨_, ?_, by rw [Encode], textChunks_encodeString s hs, ?_, hflat, ?_⟩
    · rw [encodeString_chunks s hs]
    · intro c hc
      rw [List.mem_append, List.mem_singleton] at hc
      rcases hc with hc | rfl
      · obtain ⟨-, h2, rs, h3, h4⟩ := mem_textCont _ s (by rw [hCS]; omega) c hc
        rw [h3, ValidString_encodeRunes, RuneCount_encodeRunes, h4, h2]
        exact ⟨rfl, rfl⟩
      · simp only [textFinal]
        rw [ValidString_encodeRunes, RuneCount_encodeRunes, length_runes]
        exact ⟨rfl, rfl⟩
    · intro hv
      rw [hflat, encodeRunes_runes s hv]

theorem encodeString_payload_roundtrip_witness :
    ∃ cs : List Chunk, (encodeString specPacker [0x68, 0xC3, 0xA9]).2 = none ∧
      Encode specPacker (.string [0x68, 0xC3, 0xA9]) =
        encodeString specPacker [0x68, 0xC3, 0xA9] ∧
      textChunks (encodeString specPacker [0x68, 0xC3, 0xA9]).1 = some cs ∧
      (∀ c ∈ cs, ValidString c.payload = true ∧ RuneCount c.payload = c.len) ∧
      (cs.map Chunk.payload).flatten = encodeRunes (runes [0x68, 0xC3, 0xA9]) ∧
      (ValidString [0x68, 0xC3, 0xA9] = true →
        (cs.map Chunk.payload).flatten = [0x68, 0xC3, 0xA9]) :=
  encodeString_payload_roundtrip [0x68, 0xC3, 0xA9]

/-- C3, as stated, fails on the one-byte string `"\xff"`, which is not UTF-8: the output
is `'S',0,1,0xEF,0xBF,0xBD`, one chunk whose payload is the three bytes of U+FFFD, so no
splitting of the output into chunks has payloads that concatenate to the input byte. -/
theorem encodeString_invalid_byte_not_reproduced :
    (encodeString specPacker [0xFF]).1 = [0x53, 0, 1, 0xEF, 0xBF, 0xBD] ∧
    textChunks (encodeString specPacker [0xFF]).1 = some [⟨0x53, 1, [0xEF, 0xBF, 0xBD]⟩] ∧
    ¬ ∃ cs : List Chunk, textChunks (encodeString specPacker [0xFF]).1 = some cs ∧
      (cs.map Chunk.payload).flatten = [0xFF] := by
  have h : textChunks (encodeString specPacker [0xFF]).1 =
      some [⟨0x53, 1, [0xEF, 0xBF, 0xBD]⟩] := by decide
  refine ⟨by decide, h, ?_⟩
  rintro ⟨cs, h1, h2⟩
  rw [h] at h1
  cases h1
  revert h2
  decide

/-- C4: for every text `s` with `c = RuneCount s` code points, the output of
`encodeString` is exactly `ceil(c/32768)` chunks, and one chunk when `s` is empty; every
chunk but the last has tag `'s'`, length header `0x8000` and a well-formed payload of
exactly 32768 code points; the last has tag `'S'` and a length header equal to the number
of code points (not bytes) of its payload, at most 32768.  A text of at most 32768 code
points encodes as `'S'`, the 2-byte big-endian count `c`, and the UTF-8 bytes of its code
points, which are the bytes of `s` when `s` is well-formed; `"hi"` gives
`'S',0x00,0x02,'h','i'`. -/
theorem encodeString_chunk_structure (s : List Nat) :
    ∃ cs : List Chunk, textChunks (encodeString specPacker s).1 = some cs ∧
      cs.length = max 1 ⌈(RuneCount s : ℚ) / 32768⌉₊ ∧
      (∀ c ∈ cs.dropLast, c.tag = 0x73 ∧ c.len = 0x8000 ∧ RuneCount c.payload = 32768 ∧
        ValidString c.payload = true) ∧
      (∃ last : Chunk, cs.getLast? = some last ∧ last.tag = 0x53 ∧
        last.len = RuneCount last.payload ∧ ValidString last.payload = true ∧
        last.len = RuneCount s - 32768 * (cs.length - 1) ∧ last.len ≤ 32768) ∧
      (RuneCount s ≤ 32768 → encodeString specPacker s =
        (0x53 :: bigEndian 2 (RuneCount s) ++ encodeRunes (runes s), none)) ∧
      (ValidString s = true → encodeRunes (runes s) = s) ∧
      encodeString specPacker [0x68, 0x69] = ([0x53, 0x00, 0x02, 0x68, 0x69], none) := by
  have hCS : CHUNK_SIZE = 32768 := rfl
  rcases eq_or_ne s [] with rfl | hs
  · refine ⟨[⟨0x53, 0, []⟩], by decide, ?_, by simp, ⟨⟨0x53, 0, []⟩, by simp, rfl, by decide,
      by decide, by simp [RuneCount_nil], by simp⟩, fun _ => by decide, fun _ => by decide,
      by decide⟩
    simp [RuneCount_nil]
  · have hpos : 0 < RuneCount s := by
      rw [RuneCount_of_ne_nil s hs]
      omega
    refine ⟨_, textChunks_encodeString s hs, ?_, ?_,
      ⟨textFinal ((RuneCount s - 1) / CHUNK_SIZE) s, List.getLast?_concat _, rfl, ?_, ?_, ?_,
        ?_⟩, ?_, encodeRunes_runes s, by decide⟩
    · rw [ceil_div_chunk, List.length_append, length_textCont, List.length_singleton, hCS]
      omega
    · intro c hc
      rw [List.dropLast_concat] at hc
      obtain ⟨h1, h2, rs, h3, h4⟩ := mem_textCont _ s (by rw [hCS]; omega) c hc
      rw [h3, ValidString_encodeRunes, RuneCount_encodeRunes, h4]
      exact ⟨h1, h2, rfl, rfl⟩
    · simp only [textFinal]
      rw [RuneCount_encodeRunes, length_runes]
    · simp only [textFinal]
      rw [ValidString_encodeRunes]
    · simp only [textFinal, RuneCount_dropRunes, List.length_append, length_textCont,
        List.length_singleton, hCS]
      omega
    · simp only [textFinal, RuneCount_dropRunes, hCS]
      omega
    · intro hle
      have hk : (RuneCount s - 1) / CHUNK_SIZE = 0 := by
        rw [hCS]
        omega
      rw [encodeString_chunks s hs, hk]
      simp [textCont, textFinal, Chunk.wire, dropRunes]

theorem encodeString_chunk_structure_witness :
    ∃ cs : List Chunk,
      textChunks (encodeString specPacker [0x68, 0xC3, 0xA9, 0xFF]).1 = some cs ∧
      cs.length = max 1 ⌈(RuneCount [0x68, 0xC3, 0xA9, 0xFF] : ℚ) / 32768⌉₊ ∧
      (∀ c ∈ cs.dropLast, c.tag = 0x73 ∧ c.len = 0x8000 ∧ RuneCount c.payload = 32768 ∧
        ValidString c.payload = true) ∧
      (∃ last : Chunk, cs.getLast? = some last ∧ last.tag = 0x53 ∧
        last.len = RuneCount last.payload ∧ ValidString last.payload = true ∧
        last.len = RuneCount [0x68, 0xC3, 0xA9, 0xFF] - 32768 * (cs.length - 1) ∧
        last.len ≤ 32768) ∧
      (RuneCount [0x68, 0xC3, 0xA9, 0xFF] ≤ 32768 →
        encodeString specPacker [0x68, 0xC3, 0xA9, 0xFF] =
          (0x53 :: bigEndian 2 (RuneCount [0x68, 0xC3, 0xA9, 0xFF]) ++
            encodeRunes (runes [0x68, 0xC3, 0xA9, 0xFF]), none)) ∧
      (ValidString [0x68, 0xC3, 0xA9, 0xFF] = true →
        encodeRunes (runes [0x68, 0xC3, 0xA9, 0xFF]) = [0x68, 0xC3, 0xA9, 0xFF]) ∧
      encodeString specPacker [0x68, 0x69] = ([0x53, 0x00, 0x02, 0x68, 0x69], none) :=
  encodeString_chunk_structure [0x68, 0xC3, 0xA9, 0xFF]

/-! ## Null, objects and plain integers -/

/-- C15: encoding the null value gives exactly the single byte `'N'` and no error,
whatever the packer; `Encode` on `nil` is `encodeNull`. -/
theorem Encode_null_single_byte (pk : Packer) :
    Encode pk .null = ([0x4e], none) ∧ Encode pk .null = encodeNull ∧
    (Encode pk .null).1.length = 1 ∧ (Encode pk .null).2 = none := by
  refine ⟨?_, ?_, ?_, ?_⟩ <;> simp [Encode, encodeNull]

/-- C13: a value of the object kind, like a value of any Go type the switch of `Encode`
does not list, gets no encoding: `Encode` fails with the error `unknow type` and returns
no bytes, whatever the packer.  The stub `encodeObject` would return the single byte
`'o'` without error, but `Encode` never calls it and its result differs. -/
theorem Encode_object_fails (pk : Packer) :
    Encode pk .other = ([], some "unknow type") ∧
    (Encode pk .other).1 = [] ∧ (Encode pk .other).2 ≠ none ∧
    (∀ v : Any, encodeObject v = ([0x6f], none)) ∧
    Encode pk .other ≠ encodeObject .other := by
  refine ⟨?_, ?_, ?_, fun _ => rfl, ?_⟩ <;> simp [Encode, encodeObject]

theorem toInt32_of_mem_range (n : Int) (h : -2147483648 ≤ n ∧ n ≤ 2147483647) :
    toInt32 n = n := by
  unfold toInt32
  omega

/-- C18: a plain `int` `n` in the signed 32-bit range encodes byte for byte as the int32
`n`, that is `'I'` and 4 bytes, and any other `n` as the int64 `n`, that is `'L'` and 8
bytes; -2147483648 and 2147483647 take the `'I'` form, 2147483648 and -2147483649 the
`'L'` form. -/
theorem Encode_int_dispatch (pk : Packer) (n : Int) :
    ((-2147483648 ≤ n ∧ n ≤ 2147483647) → Encode pk (.int n) = Encode pk (.int32 n)) ∧
    (¬ (-2147483648 ≤ n ∧ n ≤ 2147483647) → Encode pk (.int n) = Encode pk (.int64 n)) ∧
    ((-2147483648 ≤ n ∧ n ≤ 2147483647) →
      ∃ p : List Nat, Encode specPacker (.int n) = (0x49 :: p, none) ∧ p.length = 4) ∧
    (¬ (-2147483648 ≤ n ∧ n ≤ 2147483647) →
      ∃ p : List Nat, Encode specPacker (.int n) = (0x4c :: p, none) ∧ p.length = 8) ∧
    Encode specPacker (.int (-2147483648)) = ([0x49, 0x80, 0, 0, 0], none) ∧
    Encode specPacker (.int 2147483647) = ([0x49, 0x7f, 0xff, 0xff, 0xff], none) ∧
    Encode specPacker (.int 2147483648) = ([0x4c, 0, 0, 0, 0, 0x80, 0, 0, 0], none) ∧
    Encode specPacker (.int (-2147483649)) =
      ([0x4c, 0xff, 0xff, 0xff, 0xff, 0x7f, 0xff, 0xff, 0xff], none) := by
  refine ⟨?_, ?_, ?_, ?_, by decide, by decide, by decide, by decide⟩
  · intro h
    rw [Encode, if_pos (by exact ⟨h.1, h.2⟩), toInt32_of_mem_range n h, Encode]
  · intro h
    rw [Encode, if_neg (by exact h)]
    simp [Encode]
  · intro h
    refine ⟨bigEndian 4 (n % 4294967296).toNat, ?_, bigEndian_length _ _⟩
    rw [Encode, if_pos (by exact ⟨h.1, h.2⟩), toInt32_of_mem_range n h]
    simp [encodeInt32]
  · intro h
    refine ⟨bigEndian 8 (n % 18446744073709551616).toNat, ?_, bigEndian_length _ _⟩
    rw [Encode, if_neg (by exact h)]
    simp [encodeInt64]

theorem Encode_int_dispatch_witness :
    (((-2147483648 : Int) ≤ 2147483648 ∧ (2147483648 : Int) ≤ 2147483647) →
      Encode specPacker (.int 2147483648) = Encode specPacker (.int32 2147483648)) ∧
    (¬ ((-2147483648 : Int) ≤ 2147483648 ∧ (2147483648 : Int) ≤ 2147483647) →
      Encode specPacker (.int 2147483648) = Encode specPacker (.int64 2147483648)) ∧
    (((-2147483648 : Int) ≤ 2147483648 ∧ (2147483648 : Int) ≤ 2147483647) →
      ∃ p : List Nat, Encode specPacker (.int 2147483648) = (0x49 :: p, none) ∧
        p.length = 4) ∧
    (¬ ((-2147483648 : Int) ≤ 2147483648 ∧ (2147483648 : Int) ≤ 2147483647) →
      ∃ p : List Nat, Encode specPacker (.int 2147483648) = (0x4c :: p, none) ∧
        p.length = 8) ∧
    Encode specPacker (.int (-2147483648)) = ([0x49, 0x80, 0, 0, 0], none) ∧
    Encode specPacker (.int 2147483647) = ([0x49, 0x7f, 0xff, 0xff, 0xff], none) ∧
    Encode specPacker (.int 2147483648) = ([0x4c, 0, 0, 0, 0, 0x80, 0, 0, 0], none) ∧
    Encode specPacker (.int (-2147483649)) =
      ([0x4c, 0xff, 0xff, 0xff, 0xff, 0x7f, 0xff, 0xff, 0xff], none) :=
  Encode_int_dispatch specPacker 2147483648

/-! ## Ill-formed text and output size -/

/-- C19: `encodeString` is lossy on ill-formed text.  A byte that cannot start a UTF-8
sequence is read as one rune, U+FFFD, of width one, so it counts as one code point, and
U+FFFD is written as `0xEF,0xBF,0xBD`.  The string `"\xff"` is not well-formed and
encodes as `'S',0x00,0x01,0xEF,0xBF,0xBD`: one chunk with header 1 whose payload is not
the input byte. -/
theorem encodeString_lossy_on_ill_formed :
    encodeString specPacker [0xFF] = ([0x53, 0x00, 0x01, 0xEF, 0xBF, 0xBD], none) ∧
    ValidString [0xFF] = false ∧ RuneCount [0xFF] = 1 ∧
    (∃ c : Chunk, textChunks (encodeString specPacker [0xFF]).1 = some [c] ∧ c.len = 1 ∧
      c.payload = [0xEF, 0xBF, 0xBD] ∧ c.payload ≠ [0xFF]) ∧
    encodeRune RuneError = [0xEF, 0xBF, 0xBD] ∧
    (∀ (c : Nat) (t : List Nat), (0x80 ≤ c ∧ c < 0xC2 ∨ 0xF4 < c) →
      ReadRune (c :: t) = (RuneError, 1, none, t) ∧
      RuneCount (c :: t) = 1 + RuneCount t) := by
  refine ⟨by decide, by decide, by decide,
    ⟨⟨0x53, 1, [0xEF, 0xBF, 0xBD]⟩, by decide, rfl, rfl, by decide⟩, by decide, ?_⟩
  intro c t h
  have hd := DecodeRune_invalid c t h
  constructor
  · rw [ReadRune_cons, hd]
    rfl
  · rw [RuneCount_cons, hd]
    rfl

theorem encodeString_lossy_on_ill_formed_witness :
    encodeString specPacker [0xFF] = ([0x53, 0x00, 0x01, 0xEF, 0xBF, 0xBD], none) ∧
    ValidString [0xFF] = false ∧ RuneCount [0xFF] = 1 ∧
    (∃ c : Chunk, textChunks (encodeString specPacker [0xFF]).1 = some [c] ∧ c.len = 1 ∧
      c.payload = [0xEF, 0xBF, 0xBD] ∧ c.payload ≠ [0xFF]) ∧
    encodeRune RuneError = [0xEF, 0xBF, 0xBD] ∧
    (∀ (c : Nat) (t : List Nat), (0x80 ≤ c ∧ c < 0xC2 ∨ 0xF4 < c) →
      ReadRune (c :: t) = (RuneError, 1, none, t) ∧
      RuneCount (c :: t) = 1 + RuneCount t) :=
  encodeString_lossy_on_ill_formed

theorem length_wire (c : Chunk) : c.wire.length = 3 + c.payload.length := by
  simp only [Chunk.wire, List.length_cons, List.length_append, bigEndian_length]

theorem length_wire_contChunks (k : Nat) : ∀ r : List Nat, k * CHUNK_SIZE ≤ r.length →
    ((contChunks k r).map Chunk.wire).flatten.length = k * (CHUNK_SIZE + 3) := by
  induction k with
  | zero =>
    intro r _
    simp [contChunks]
  | succ k ih =>
    intro r h
    have hmul : (k + 1) * CHUNK_SIZE = k * CHUNK_SIZE + CHUNK_SIZE := by ring
    have hmul2 : (k + 1) * (CHUNK_SIZE + 3) = k * (CHUNK_SIZE + 3) + CHUNK_SIZE + 3 := by ring
    rw [contChunks, List.map_cons, List.flatten_cons, List.length_append, length_wire,
      ih _ (by simp only [List.length_drop]; omega)]
    simp only [List.length_take]
    omega

/-- C20: for every byte sequence `b`, the output of `encodeBinary` has
`len(b) + 3 * max(1, ceil(len(b)/32768))` bytes, three for the tag and length header of
each chunk and the payload; it is never shorter than 3 bytes. -/
theorem length_encodeBinary (b : List Nat) :
    (encodeBinary specPacker b).1.length = b.length + 3 * max 1 ⌈(b.length : ℚ) / 32768⌉₊ ∧
    3 ≤ (encodeBinary specPacker b).1.length := by
  have hCS : CHUNK_SIZE = 32768 := rfl
  rcases eq_or_ne b [] with rfl | hb
  · constructor
    · simp [encodeBinary, bigEndian]
    · decide
  · have hpos : 0 < b.length := List.length_pos.mpr hb
    have hlen : (encodeBinary specPacker b).1.length =
        b.length + 3 * ((b.length - 1) / CHUNK_SIZE + 1) := by
      rw [encodeBinary_chunks b hb]
      simp only [List.map_append, List.flatten_append, List.length_append, List.map_cons,
        List.map_nil, List.flatten_cons, List.flatten_nil, List.length_nil, length_wire]
      rw [length_wire_contChunks _ _ (by rw [hCS]; omega)]
      simp only [finalChunk, List.length_drop, hCS]
      omega
    rw [hlen, ceil_div_chunk, hCS]
    constructor
    · congr 2
      omega
    · omega

/-! ## Termination of the chunking loops -/

/-- The loop of `encodeBinary` gives the same answer on any two fuels that cover the
buffer, and it gives an answer. -/
theorem binaryLoop_stable (pk : Packer) (f : Nat) : ∀ (g : Nat) (r b : List Nat),
    r.length ≤ f → r.length ≤ g →
    binaryLoop pk f r b = binaryLoop pk g r b ∧ ∃ res, binaryLoop pk f r b = some res := by
  have hCS : CHUNK_SIZE = 32768 := rfl
  induction f with
  | zero =>
    intro g r b hf _
    have hr : r = [] := List.length_eq_zero.mp (by omega)
    subst hr
    rw [binaryLoop_nil, binaryLoop_nil]
    exact ⟨rfl, _, rfl⟩
  | succ f ih =>
    intro g r b hf hg
    rcases r with _ | ⟨c, t⟩
    · rw [binaryLoop_nil, binaryLoop_nil]
      exact ⟨rfl, _, rfl⟩
    · obtain ⟨g, rfl⟩ : ∃ g', g = g' + 1 := ⟨g - 1, by simp at hg; omega⟩
      simp only [List.length_cons] at hf hg
      have hpos : (c :: t).length > 0 := by simp
      rw [binaryLoop, binaryLoop, if_pos hpos, if_pos hpos]
      by_cases hgt : (c :: t).length > CHUNK_SIZE
      · rw [if_pos hgt, if_pos hgt]
        rcases pk.PackUint16 (toUint16 CHUNK_SIZE) with ⟨lenB, _ | err⟩
        · exact ih g _ _ (by simp only [List.length_drop, List.length_cons]; omega)
            (by simp only [List.length_drop, List.length_cons]; omega)
        · exact ⟨rfl, _, rfl⟩
      · rw [if_neg hgt, if_neg hgt]
        rcases pk.PackUint16 (toUint16 (c :: t).length) with ⟨lenB, _ | err⟩
        · exact ih g _ _ (by simp) (by simp)
        · exact ⟨rfl, _, rfl⟩

theorem length_dropRunes_le (n : Nat) : ∀ p : List Nat, (dropRunes n p).length ≤ p.length := by
  induction n with
  | zero =>
    intro p
    exact le_rfl
  | succ n ih =>
    intro p
    rcases p with _ | ⟨c, t⟩
    · simp [dropRunes]
    · rw [dropRunes]
      have h1 := ih ((c :: t).drop (DecodeRune (c :: t)).2)
      have h2 := length_drop_DecodeRune c t
      simp only [List.length_cons]
      omega

theorem length_dropRunes_lt (n : Nat) (p : List Nat) (hn : 0 < n) (hp : p ≠ []) :
    (dropRunes n p).length < p.length := by
  obtain ⟨m, rfl⟩ : ∃ m, n = m + 1 := ⟨n - 1, by omega⟩
  rcases p with _ | ⟨c, t⟩
  · exact absurd rfl hp
  · rw [dropRunes]
    have h1 := length_dropRunes_le m ((c :: t).drop (DecodeRune (c :: t)).2)
    have h2 := length_drop_DecodeRune c t
    simp only [List.length_cons]
    omega

/-- The loop of `encodeString` gives the same answer on any two fuels that cover the
code points of the buffer, and it gives an answer. -/
theorem stringLoop_stable (pk : Packer) (f : Nat) : ∀ (g : Nat) (p b : List Nat),
    RuneCount p ≤ f → RuneCount p ≤ g →
    stringLoop pk f p b = stringLoop pk g p b ∧ ∃ res, stringLoop pk f p b = some res := by
  have hCS : CHUNK_SIZE = 32768 := rfl
  induction f with
  | zero =>
    intro g p b hf _
    have hp : p = [] := RuneCount_eq_zero p (by omega)
    subst hp
    rw [stringLoop_nil, stringLoop_nil]
    exact ⟨rfl, _, rfl⟩
  | succ f ih =>
    intro g p b hf hg
    by_cases h0 : RuneCount p = 0
    · have hp : p = [] := RuneCount_eq_zero p h0
      subst hp
      rw [stringLoop_nil, stringLoop_nil]
      exact ⟨rfl, _, rfl⟩
    · obtain ⟨g, rfl⟩ : ∃ g', g = g' + 1 := ⟨g - 1, by omega⟩
      rw [stringLoop, stringLoop, if_neg h0, if_neg h0]
      by_cases hgt : RuneCount p > CHUNK_SIZE
      · rw [if_pos hgt, if_pos hgt]
        rcases pk.PackUint16 (toUint16 CHUNK_SIZE) with ⟨lenB, _ | err⟩
        · simp only [sChunk_eq]
          exact ih g _ _ (by rw [RuneCount_dropRunes]; omega)
            (by rw [RuneCount_dropRunes]; omega)
        · exact ⟨rfl, _, rfl⟩
      · rw [if_neg hgt, if_neg hgt]
        rcases pk.PackUint16 (toUint16 (RuneCount p)) with ⟨lenB, _ | err⟩
        · simp only [sChunk_eq]
          exact ih g _ _ (by rw [RuneCount_dropRunes]; omega)
            (by rw [RuneCount_dropRunes]; omega)
        · exact ⟨rfl, _, rfl⟩

/-- C17: the chunking loops of `encodeBinary` and `encodeString` terminate on every
input, ill-formed text included, and whatever the packer: run for `len(v)` rounds they
give a result, and more rounds give the same result.  Each round consumes at least one
unit: on a non-empty buffer the bytes left after a binary chunk are fewer, and after a
text chunk both the code points and the bytes left are fewer. -/
theorem chunking_loops_terminate (pk : Packer) (v : List Nat) :
    (∃ res, binaryLoop pk v.length v [] = some res) ∧
    (∀ fuel, v.length ≤ fuel → binaryLoop pk fuel v [] = binaryLoop pk v.length v []) ∧
    (∃ res, stringLoop pk v.length v [] = some res) ∧
    (∀ fuel, v.length ≤ fuel → stringLoop pk fuel v [] = stringLoop pk v.length v []) ∧
    (v ≠ [] →
      (v.drop (if v.length > CHUNK_SIZE then CHUNK_SIZE else v.length)).length < v.length) ∧
    (v ≠ [] → ∀ b : List Nat,
      RuneCount (sChunk (if RuneCount v > CHUNK_SIZE then CHUNK_SIZE else RuneCount v)
        (v, b)).1 < RuneCount v ∧
      (sChunk (if RuneCount v > CHUNK_SIZE then CHUNK_SIZE else RuneCount v)
        (v, b)).1.length < v.length) := by
  have hCS : CHUNK_SIZE = 32768 := rfl
  have hrc := RuneCount_le_length v
  refine ⟨(binaryLoop_stable pk _ v.length v [] le_rfl le_rfl).2,
    fun fuel hf => (binaryLoop_stable pk _ v.length v [] hf le_rfl).1,
    (stringLoop_stable pk _ v.length v [] hrc hrc).2,
    fun fuel hf => (stringLoop_stable pk _ v.length v [] (by omega) hrc).1, ?_, ?_⟩
  · intro hv
    have hpos : 0 < v.length := List.length_pos.mpr hv
    simp only [List.length_drop]
    split_ifs <;> omega
  · intro hv b
    have hpos : 0 < RuneCount v := by
      rw [RuneCount_of_ne_nil v hv]
      omega
    rw [sChunk_eq]
    simp only
    rw [RuneCount_dropRunes]
    constructor
    · split_ifs <;> omega
    · exact length_dropRunes_lt _ v (by split_ifs <;> omega) hv

theorem chunking_loops_terminate_witness :
    (∃ res, binaryLoop specPacker [0x68, 0xFF].length [0x68, 0xFF] [] = some res) ∧
    (∀ fuel, [0x68, 0xFF].length ≤ fuel → binaryLoop specPacker fuel [0x68, 0xFF] [] =
      binaryLoop specPacker [0x68, 0xFF].length [0x68, 0xFF] []) ∧
    (∃ res, stringLoop specPacker [0x68, 0xFF].length [0x68, 0xFF] [] = some res) ∧
    (∀ fuel, [0x68, 0xFF].length ≤ fuel → stringLoop specPacker fuel [0x68, 0xFF] [] =
      stringLoop specPacker [0x68, 0xFF].length [0x68, 0xFF] []) ∧
    (([0x68, 0xFF] : List Nat) ≠ [] →
      (([0x68, 0xFF] : List Nat).drop (if ([0x68, 0xFF] : List Nat).length > CHUNK_SIZE
        then CHUNK_SIZE else ([0x68, 0xFF] : List Nat).length)).length <
          ([0x68, 0xFF] : List Nat).length) ∧
    (([0x68, 0xFF] : List Nat) ≠ [] → ∀ b : List Nat,
      RuneCount (sChunk (if RuneCount [0x68, 0xFF] > CHUNK_SIZE then CHUNK_SIZE
        else RuneCount [0x68, 0xFF]) ([0x68, 0xFF], b)).1 < RuneCount [0x68, 0xFF] ∧
      (sChunk (if RuneCount [0x68, 0xFF] > CHUNK_SIZE then CHUNK_SIZE
        else RuneCount [0x68, 0xFF]) ([0x68, 0xFF], b)).1.length <
          ([0x68, 0xFF] : List Nat).length) :=
  chunking_loops_terminate specPacker [0x68, 0xFF]

/-! ## Failure leaves no bytes -/

theorem binaryLoop_atomic (pk : Packer) (fuel : Nat) : ∀ (r b out : List Nat) (e : Error),
    binaryLoop pk fuel r b = some (out, some e) → out = [] := by
  induction fuel with
  | zero =>
    intro r b out e h
    rw [binaryLoop] at h
    split_ifs at h
    simp at h
  | succ fuel ih =>
    intro r b out e h
    rw [binaryLoop] at h
    split_ifs at h
    · rcases hp : pk.PackUint16 (toUint16 CHUNK_SIZE) with ⟨lenB, _ | err⟩
      · rw [hp] at h
        exact ih _ _ _ _ h
      · rw [hp] at h
        simp only [Option.some.injEq, Prod.mk.injEq] at h
        exact h.1.symm
    · rcases hp : pk.PackUint16 (toUint16 r.length) with ⟨lenB, _ | err⟩
      · rw [hp] at h
        exact ih _ _ _ _ h
      · rw [hp] at h
        simp only [Option.some.injEq, Prod.mk.injEq] at h
        exact h.1.symm
    · simp at h

theorem stringLoop_atomic (pk : Packer) (fuel : Nat) : ∀ (p b out : List Nat) (e : Error),
    stringLoop pk fuel p b = some (out, some e) → out = [] := by
  induction fuel with
  | zero =>
    intro p b out e h
    rw [stringLoop] at h
    split_ifs at h
    simp at h
  | succ fuel ih =>
    intro p b out e h
    rw [stringLoop] at h
    split_ifs at h
    · simp at h
    · rcases hp : pk.PackUint16 (toUint16 CHUNK_SIZE) with ⟨lenB, _ | err⟩
      · rw [hp] at h
        exact ih _ _ _ _ h
      · rw [hp] at h
        simp only [Option.some.injEq, Prod.mk.injEq] at h
        exact h.1.symm
    · rcases hp : pk.PackUint16 (toUint16 (RuneCount p)) with ⟨lenB, _ | err⟩
      · rw [hp] at h
        exact ih _ _ _ _ h
      · rw [hp] at h
        simp only [Option.some.injEq, Prod.mk.injEq] at h
        exact h.1.symm

theorem encodeBinary_atomic (pk : Packer) (v : List Nat)
    (h : (encodeBinary pk v).2 ≠ none) : (encodeBinary pk v).1 = [] := by
  unfold encodeBinary at h ⊢
  split_ifs at h ⊢
  · generalize pk.PackUint16 0 = res at h ⊢
    rcases res with ⟨lenB, _ | err⟩
    · exact absurd rfl h
    · rfl
  · rcases hl : binaryLoop pk v.length v [] with _ | ⟨out, _ | e⟩
    · rfl
    · rw [hl] at h
      exact absurd rfl h
    · exact binaryLoop_atomic pk _ _ _ _ _ hl

theorem encodeString_atomic (pk : Packer) (v : List Nat)
    (h : (encodeString pk v).2 ≠ none) : (encodeString pk v).1 = [] := by
  unfold encodeString at h ⊢
  split_ifs at h ⊢
  · generalize pk.PackUint16 (toUint16 (RuneCount v)) = res at h ⊢
    rcases res with ⟨lenB, _ | err⟩
    · exact absurd rfl h
    · rfl
  · rcases hl : stringLoop pk v.length v [] with _ | ⟨out, _ | e⟩
    · rfl
    · rw [hl] at h
      exact absurd rfl h
    · exact stringLoop_atomic pk _ _ _ _ _ hl

theorem encodeTime_atomic (pk : Packer) (t : Int) (h : (encodeTime pk t).2 ≠ none) :
    (encodeTime pk t).1 = [] := by
  unfold encodeTime at h ⊢
  generalize pk.PackInt64 (Int.tdiv t 1000000) = res at h ⊢
  rcases res with ⟨tmpV, _ | err⟩
  · exact absurd rfl h
  · rfl

theorem encodeFloat64_atomic (pk : Packer) (f : Nat) (h : (encodeFloat64 pk f).2 ≠ none) :
    (encodeFloat64 pk f).1 = [] := by
  unfold encodeFloat64 at h ⊢
  generalize pk.PackFloat64 f = res at h ⊢
  rcases res with ⟨tmpV, _ | err⟩
  · exact absurd rfl h
  · rfl

theorem encodeInt32_atomic (pk : Packer) (n : Int) (h : (encodeInt32 pk n).2 ≠ none) :
    (encodeInt32 pk n).1 = [] := by
  unfold encodeInt32 at h ⊢
  generalize pk.PackInt32 n = res at h ⊢
  rcases res with ⟨tmpV, _ | err⟩
  · exact absurd rfl h
  · rfl

theorem encodeInt64_atomic (pk : Packer) (n : Int) (h : (encodeInt64 pk n).2 ≠ none) :
    (encodeInt64 pk n).1 = [] := by
  unfold encodeInt64 at h ⊢
  generalize pk.PackInt64 n = res at h ⊢
  rcases res with ⟨tmpV, _ | err⟩
  · exact absurd rfl h
  · rfl

theorem listLoop_atomic (pk : Packer) (xs : List Any) : ∀ b : List Nat,
    (listLoop pk xs b).2 ≠ none → (listLoop pk xs b).1 = [] := by
  induction xs with
  | nil =>
    intro b h
    rw [listLoop] at h
    exact absurd rfl h
  | cons a rest ih =>
    intro b h
    rw [listLoop] at h ⊢
    generalize Encode pk a = res at h ⊢
    rcases res with ⟨tmpV, _ | err⟩
    · exact ih _ h
    · rfl

theorem mapLoop_atomic (pk : Packer) (m : List (Any × Any)) : ∀ b : List Nat,
    (mapLoop pk m b).2 ≠ none → (mapLoop pk m b).1 = [] := by
  induction m with
  | nil =>
    intro b h
    rw [mapLoop] at h
    exact absurd rfl h
  | cons kv rest ih =>
    intro b h
    obtain ⟨k, v⟩ := kv
    rw [mapLoop] at h ⊢
    generalize Encode pk k = res at h ⊢
    rcases res with ⟨tmpK, _ | err⟩
    · generalize Encode pk v = res at h ⊢
      rcases res with ⟨tmpV, _ | err⟩
      · exact ih _ h
      · rfl
    · rfl

theorem encodeList_atomic (pk : Packer) (xs : List Any) (h : (encodeList pk xs).2 ≠ none) :
    (encodeList pk xs).1 = [] := by
  unfold encodeList at h ⊢
  generalize pk.PackInt32 (toInt32 xs.length) = res at h ⊢
  rcases res with ⟨lenB, _ | err⟩
  · exact listLoop_atomic pk xs _ h
  · rfl

theorem Encode_atomic (pk : Packer) (v : Any) (h : (Encode pk v).2 ≠ none) :
    (Encode pk v).1 = [] := by
  cases v with
  | binary v =>
    rw [Encode] at h ⊢
    exact encodeBinary_atomic pk v h
  | bool v =>
    rw [Encode] at h
    exact absurd rfl h
  | time v =>
    rw [Encode] at h ⊢
    exact encodeTime_atomic pk v h
  | float64 v =>
    rw [Encode] at h ⊢
    exact encodeFloat64_atomic pk v h
  | int v =>
    rw [Encode] at h ⊢
    split_ifs at h ⊢
    · exact encodeInt32_atomic pk _ h
    · exact encodeInt64_atomic pk _ h
  | int32 v =>
    rw [Encode] at h ⊢
    exact encodeInt32_atomic pk v h
  | int64 v =>
    rw [Encode] at h ⊢
    exact encodeInt64_atomic pk v h
  | string v =>
    rw [Encode] at h ⊢
    exact encodeString_atomic pk v h
  | null =>
    rw [Encode] at h
    exact absurd rfl h
  | list v =>
    rw [Encode_list] at h ⊢
    exact encodeList_atomic pk v h
  | map v =>
    rw [Encode_map, encodeMap] at h ⊢
    exact mapLoop_atomic pk v _ h
  | other =>
    rw [Encode]

/-- C12: encoding is atomic on failure.  Whatever the packer does, and so wherever one of
its calls fails, and whatever unsupported value sits in a list or a map: when `Encode`
returns an error it returns no bytes, and so does each encoder of one kind, `encodeBool`
and `encodeNull` never returning an error. -/
theorem encoders_atomic_on_failure (pk : Packer) :
    (∀ v : Any, (Encode pk v).2 ≠ none → (Encode pk v).1 = []) ∧
    (∀ v : List Nat, (encodeBinary pk v).2 ≠ none → (encodeBinary pk v).1 = []) ∧
    (∀ v : List Nat, (encodeString pk v).2 ≠ none → (encodeString pk v).1 = []) ∧
    (∀ t : Int, (encodeTime pk t).2 ≠ none → (encodeTime pk t).1 = []) ∧
    (∀ f : Nat, (encodeFloat64 pk f).2 ≠ none → (encodeFloat64 pk f).1 = []) ∧
    (∀ n : Int, (encodeInt32 pk n).2 ≠ none → (encodeInt32 pk n).1 = []) ∧
    (∀ n : Int, (encodeInt64 pk n).2 ≠ none → (encodeInt64 pk n).1 = []) ∧
    (∀ xs : List Any, (encodeList pk xs).2 ≠ none → (encodeList pk xs).1 = []) ∧
    (∀ m : List (Any × Any), (encodeMap pk m).2 ≠ none → (encodeMap pk m).1 = []) ∧
    (∀ v : Bool, (encodeBool v).2 = none) ∧ encodeNull.2 = none :=
  ⟨Encode_atomic pk, encodeBinary_atomic pk, encodeString_atomic pk, encodeTime_atomic pk,
    encodeFloat64_atomic pk, encodeInt32_atomic pk, encodeInt64_atomic pk,
    encodeList_atomic pk, fun m h => mapLoop_atomic pk m _ h, fun _ => rfl, rfl⟩

theorem encoders_atomic_on_failure_witness :
    ((Encode failingPacker (.list [.int 1, .map [(.string [0x61], .int64 5)]])).2 ≠ none ∧
      (Encode failingPacker (.list [.int 1, .map [(.string [0x61], .int64 5)]])).1 = []) ∧
    ((Encode specPacker (.map [(.int 1, .null), (.null, .other)])).2 ≠ none ∧
      (Encode specPacker (.map [(.int 1, .null), (.null, .other)])).1 = []) :=
  ⟨⟨by decide, (encoders_atomic_on_failure failingPacker).1 _ (by decide)⟩,
    ⟨by decide, (encoders_atomic_on_failure specPacker).1 _ (by decide)⟩⟩

/-! ## Unsupported values -/

/-- Induction over a value tree: a property of every element of a list, and of every key
and value of a map, passes to the list and to the map. -/
theorem Any_tree_induction {P : Any → Prop}
    (hleaf : ∀ v : Any, (∀ xs, v ≠ .list xs) → (∀ m, v ≠ .map m) → P v)
    (hlist : ∀ xs : List Any, (∀ x ∈ xs, P x) → P (.list xs))
    (hmap : ∀ m : List (Any × Any), (∀ p ∈ m, P p.1 ∧ P p.2) → P (.map m)) (v : Any) :
    P v := by
  refine Any.rec (motive_1 := P) (motive_2 := fun l => ∀ x ∈ l, P x)
    (motive_3 := fun l => ∀ p ∈ l, P p.1 ∧ P p.2) (motive_4 := fun p => P p.1 ∧ P p.2)
    ?_ ?_ ?_ ?_ ?_ ?_ ?_ ?_ ?_ ?_ ?_ ?_ ?_ ?_ ?_ ?_ ?_ v
  · exact fun _ => hleaf _ (fun _ h => Any.noConfusion h) (fun _ h => Any.noConfusion h)
  · exact fun _ => hleaf _ (fun _ h => Any.noConfusion h) (fun _ h => Any.noConfusion h)
  · exact fun _ => hleaf _ (fun _ h => Any.noConfusion h) (fun _ h => Any.noConfusion h)
  · exact fun _ => hleaf _ (fun _ h => Any.noConfusion h) (fun _ h => Any.noConfusion h)
  · exact fun _ => hleaf _ (fun _ h => Any.noConfusion h) (fun _ h => Any.noConfusion h)
  · exact fun _ => hleaf _ (fun _ h => Any.noConfusion h) (fun _ h => Any.noConfusion h)
  · exact fun _ => hleaf _ (fun _ h => Any.noConfusion h) (fun _ h => Any.noConfusion h)
  · exact fun _ => hleaf _ (fun _ h => Any.noConfusion h) (fun _ h => Any.noConfusion h)
  · exact hleaf _ (fun _ h => Any.noConfusion h) (fun _ h => Any.noConfusion h)
  · exact fun xs ih => hlist xs ih
  · exact fun m ih => hmap m ih
  · exact hleaf _ (fun _ h => Any.noConfusion h) (fun _ h => Any.noConfusion h)
  · exact fun x hx => absurd hx (List.not_mem_nil x)
  · intro head tail h1 h2 x hx
    rcases List.mem_cons.mp hx with rfl | hx
    · exact h1
    · exact h2 x hx
  · exact fun p hp => absurd hp (List.not_mem_nil p)
  · intro head tail h1 h2 p hp
    rcases List.mem_cons.mp hp with rfl | hp
    · exact h1
    · exact h2 p hp
  · exact fun _ _ h1 h2 => ⟨h1, h2⟩

theorem supportedList_iff (xs : List Any) :
    supportedList xs = true ↔ ∀ x ∈ xs, supported x = true := by
  induction xs with
  | nil => simp [supportedList]
  | cons a rest ih => simp [supportedList, ih]

theorem supportedPairs_iff (m : List (Any × Any)) :
    supportedPairs m = true ↔ ∀ p ∈ m, supported p.1 = true ∧ supported p.2 = true := by
  induction m with
  | nil => simp [supportedPairs]
  | cons kv rest ih =>
    obtain ⟨k, v⟩ := kv
    simp [supportedPairs, ih, and_assoc]

theorem binaryLoop_no_error (pk : Packer) (h16 : ∀ u, (pk.PackUint16 u).2 = none)
    (fuel : Nat) : ∀ (r b out : List Nat) (e : Option Error),
    binaryLoop pk fuel r b = some (out, e) → e = none := by
  induction fuel with
  | zero =>
    intro r b out e h
    rw [binaryLoop] at h
    split_ifs at h
    simp only [Option.some.injEq, Prod.mk.injEq] at h
    exact h.2.symm
  | succ fuel ih =>
    intro r b out e h
    rw [binaryLoop] at h
    split_ifs at h
    · have hp := h16 (toUint16 CHUNK_SIZE)
      generalize pk.PackUint16 (toUint16 CHUNK_SIZE) = res at h hp
      rcases res with ⟨lenB, _ | err⟩
      · exact ih _ _ _ _ h
      · exact absurd hp (by simp)
    · have hp := h16 (toUint16 r.length)
      generalize pk.PackUint16 (toUint16 r.length) = res at h hp
      rcases res with ⟨lenB, _ | err⟩
      · exact ih _ _ _ _ h
      · exact absurd hp (by simp)
    · simp only [Option.some.injEq, Prod.mk.injEq] at h
      exact h.2.symm

theorem stringLoop_no_error (pk : Packer) (h16 : ∀ u, (pk.PackUint16 u).2 = none)
    (fuel : Nat) : ∀ (p b out : List Nat) (e : Option Error),
    stringLoop pk fuel p b = some (out, e) → e = none := by
  induction fuel with
  | zero =>
    intro p b out e h
    rw [stringLoop] at h
    split_ifs at h
    simp only [Option.some.injEq, Prod.mk.injEq] at h
    exact h.2.symm
  | succ fuel ih =>
    intro p b out e h
    rw [stringLoop] at h
    split_ifs at h
    · simp only [Option.some.injEq, Prod.mk.injEq] at h
      exact h.2.symm
    · have hp := h16 (toUint16 CHUNK_SIZE)
      generalize pk.PackUint16 (toUint16 CHUNK_SIZE) = res at h hp
      rcases res with ⟨lenB, _ | err⟩
      · exact ih _ _ _ _ h
      · exact absurd hp (by simp)
    · have hp := h16 (toUint16 (RuneCount p))
      generalize pk.PackUint16 (toUint16 (RuneCount p)) = res at h hp
      rcases res with ⟨lenB, _ | err⟩
      · exact ih _ _ _ _ h
      · exact absurd hp (by simp)

theorem encodeBinary_no_error (pk : Packer) (h16 : ∀ u, (pk.PackUint16 u).2 = none)
    (v : List Nat) : (encodeBinary pk v).2 = none := by
  unfold encodeBinary
  split_ifs
  · have hp := h16 0
    generalize pk.PackUint16 0 = res at hp ⊢
    rcases res with ⟨lenB, _ | err⟩
    · rfl
    · exact absurd hp (by simp)
  · rcases hl : binaryLoop pk v.length v [] with _ | ⟨out, e⟩
    · rfl
    · exact binaryLoop_no_error pk h16 _ _ _ _ _ hl

theorem encodeString_no_error (pk : Packer) (h16 : ∀ u, (pk.PackUint16 u).2 = none)
    (v : List Nat) : (encodeString pk v).2 = none := by
  unfold encodeString
  split_ifs
  · have hp := h16 (toUint16 (RuneCount v))
    generalize pk.PackUint16 (toUint16 (RuneCount v)) = res at hp ⊢
    rcases res with ⟨lenB, _ | err⟩
    · rfl
    · exact absurd hp (by simp)
  · rcases hl : stringLoop pk v.length v [] with _ | ⟨out, e⟩
    · rfl
    · exact stringLoop_no_error pk h16 _ _ _ _ _ hl

theorem encodeInt32_no_error (pk : Packer) (h32 : ∀ i, (pk.PackInt32 i).2 = none) (n : Int) :
    (encodeInt32 pk n).2 = none := by
  unfold encodeInt32
  have hp := h32 n
  generalize pk.PackInt32 n = res at hp ⊢
  rcases res with ⟨tmpV, _ | err⟩
  · rfl
  · exact absurd hp (by simp)

theorem encodeInt64_no_error (pk : Packer) (h64 : ∀ i, (pk.PackInt64 i).2 = none) (n : Int) :
    (encodeInt64 pk n).2 = none := by
  unfold encodeInt64
  have hp := h64 n
  generalize pk.PackInt64 n = res at hp ⊢
  rcases res with ⟨tmpV, _ | err⟩
  · rfl
  · exact absurd hp (by simp)

theorem encodeTime_no_error (pk : Packer) (h64 : ∀ i, (pk.PackInt64 i).2 = none) (t : Int) :
    (encodeTime pk t).2 = none := by
  unfold encodeTime
  have hp := h64 (Int.tdiv t 1000000)
  generalize pk.PackInt64 (Int.tdiv t 1000000) = res at hp ⊢
  rcases res with ⟨tmpV, _ | err⟩
  · rfl
  · exact absurd hp (by simp)

theorem encodeFloat64_no_error (pk : Packer) (hf64 : ∀ f, (pk.PackFloat64 f).2 = none)
    (f : Nat) : (encodeFloat64 pk f).2 = none := by
  unfold encodeFloat64
  have hp := hf64 f
  generalize pk.PackFloat64 f = res at hp ⊢
  rcases res with ⟨tmpV, _ | err⟩
  · rfl
  · exact absurd hp (by simp)

/-- The loop of `encodeList` fails exactly when an element fails, with that error. -/
theorem listLoop_error (pk : Packer) (xs : List Any) : ∀ b : List Nat,
    ((listLoop pk xs b).2 = none ↔ ∀ x ∈ xs, (Encode pk x).2 = none) ∧
    (∀ e, (listLoop pk xs b).2 = some e → ∃ x ∈ xs, (Encode pk x).2 = some e) := by
  induction xs with
  | nil =>
    intro b
    rw [listLoop]
    simp
  | cons a rest ih =>
    intro b
    rw [listLoop]
    rcases ha : Encode pk a with ⟨tmpV, _ | err⟩
    · simp only [List.mem_cons, forall_eq_or_imp, ha, true_and, exists_eq_or_imp]
      exact ⟨(ih _).1, fun e he => Or.inr ((ih _).2 e he)⟩
    · simp [ha]

/-- The loop of `encodeMap` fails exactly when a key or a value fails, with that error. -/
theorem mapLoop_error (pk : Packer) (m : List (Any × Any)) : ∀ b : List Nat,
    ((mapLoop pk m b).2 = none ↔
      ∀ p ∈ m, (Encode pk p.1).2 = none ∧ (Encode pk p.2).2 = none) ∧
    (∀ e, (mapLoop pk m b).2 = some e →
      ∃ p ∈ m, (Encode pk p.1).2 = some e ∨ (Encode pk p.2).2 = some e) := by
  induction m with
  | nil =>
    intro b
    rw [mapLoop]
    simp
  | cons kv rest ih =>
    intro b
    obtain ⟨k, v⟩ := kv
    rw [mapLoop]
    rcases hk : Encode pk k with ⟨tmpK, _ | err⟩
    · rcases hv : Encode pk v with ⟨tmpV, _ | err⟩
      · simp only [List.mem_cons, forall_eq_or_imp, hk, hv, true_and, exists_eq_or_imp]
        exact ⟨(ih _).1, fun e he => Or.inr ((ih _).2 e he)⟩
      · simp [hk, hv]
    · simp [hk]

/-- With packers that do not fail, `Encode` succeeds exactly on the value trees built from
supported kinds, and its only error is `unknow type`. -/
theorem Encode_error_iff (pk : Packer) (h16 : ∀ u, (pk.PackUint16 u).2 = none)
    (h32 : ∀ i, (pk.PackInt32 i).2 = none) (h64 : ∀ i, (pk.PackInt64 i).2 = none)
    (hf64 : ∀ f, (pk.PackFloat64 f).2 = none) (v : Any) :
    ((Encode pk v).2 = none ↔ supported v = true) ∧
    (∀ e, (Encode pk v).2 = some e → e = "unknow type") := by
  induction v using Any_tree_induction with
  | hleaf v hl hm =>
    have hnone : ∀ r : Result, r.2 = none → ∀ e, r.2 = some e → e = "unknow type" := by
      intro r hr e he
      rw [hr] at he
      exact absurd he (by simp)
    cases v with
    | binary v =>
      rw [Encode]
      exact ⟨by simp [supported, encodeBinary_no_error pk h16 v],
        hnone _ (encodeBinary_no_error pk h16 v)⟩
    | bool v =>
      rw [Encode]
      exact ⟨by simp [supported, encodeBool], hnone _ rfl⟩
    | time v =>
      rw [Encode]
      exact ⟨by simp [supported, encodeTime_no_error pk h64 v],
        hnone _ (encodeTime_no_error pk h64 v)⟩
    | float64 v =>
      rw [Encode]
      exact ⟨by simp [supported, encodeFloat64_no_error pk hf64 v],
        hnone _ (encodeFloat64_no_error pk hf64 v)⟩
    | int v =>
      rw [Encode]
      split_ifs
      · exact ⟨by simp [supported, encodeInt32_no_error pk h32],
          hnone _ (encodeInt32_no_error pk h32 _)⟩
      · exact ⟨by simp [supported, encodeInt64_no_error pk h64],
          hnone _ (encodeInt64_no_error pk h64 _)⟩
    | int32 v =>
      rw [Encode]
      exact ⟨by simp [supported, encodeInt32_no_error pk h32],
        hnone _ (encodeInt32_no_error pk h32 _)⟩
    | int64 v =>
      rw [Encode]
      exact ⟨by simp [supported, encodeInt64_no_error pk h64],
        hnone _ (encodeInt64_no_error pk h64 _)⟩
    | string v =>
      rw [Encode]
      exact ⟨by simp [supported, encodeString_no_error pk h16 v],
        hnone _ (encodeString_no_error pk h16 v)⟩
    | null =>
      rw [Encode]
      exact ⟨by simp [supported, encodeNull], hnone _ rfl⟩
    | list xs => exact absurd rfl (hl xs)
    | map m => exact absurd rfl (hm m)
    | other =>
      rw [Encode]
      simp [supported]
  | hlist xs ih =>
    rw [Encode, supported, supportedList_iff]
    have hp := h32 (toInt32 xs.length)
    generalize pk.PackInt32 (toInt32 xs.length) = res at hp ⊢
    rcases res with ⟨lenB, _ | err⟩
    · simp only
      constructor
      · rw [(listLoop_error pk xs _).1]
        exact ⟨fun h x hx => (ih x hx).1.mp (h x hx), fun h x hx => (ih x hx).1.mpr (h x hx)⟩
      · intro e he
        obtain ⟨x, hx, hxe⟩ := (listLoop_error pk xs _).2 e he
        exact (ih x hx).2 e hxe
    · exact absurd hp (by simp)
  | hmap m ih =>
    rw [Encode, supported, supportedPairs_iff]
    constructor
    · rw [(mapLoop_error pk m _).1]
      exact ⟨fun h p hp => ⟨(ih p hp).1.1.mp (h p hp).1, (ih p hp).2.1.mp (h p hp).2⟩,
        fun h p hp => ⟨(ih p hp).1.1.mpr (h p hp).1, (ih p hp).2.1.mpr (h p hp).2⟩⟩
    · intro e he
      obtain ⟨p, hp, hpe | hpe⟩ := (mapLoop_error pk m _).2 e he
      · exact (ih p hp).1.2 e hpe
      · exact (ih p hp).2.2 e hpe

/-- C11: when the primitive packers do not fail, `Encode` fails exactly when the value, or
some element, key or value nested anywhere in its lists and maps, is of a kind other than
null, bool, int, int32, int64, float64, timestamp, byte string, text, list and map; the
error is then `unknow type`, and on every value tree built only from those kinds `Encode`
succeeds. -/
theorem Encode_fails_iff_unsupported (pk : Packer) (h16 : ∀ u, (pk.PackUint16 u).2 = none)
    (h32 : ∀ i, (pk.PackInt32 i).2 = none) (h64 : ∀ i, (pk.PackInt64 i).2 = none)
    (hf64 : ∀ f, (pk.PackFloat64 f).2 = none) (v : Any) :
    ((Encode pk v).2 ≠ none ↔ supported v = false) ∧
    (supported v = false → (Encode pk v).2 = some "unknow type") ∧
    (supported v = true → (Encode pk v).2 = none) := by
  obtain ⟨h1, h2⟩ := Encode_error_iff pk h16 h32 h64 hf64 v
  refine ⟨?_, ?_, h1.mpr⟩
  · rw [Ne, h1]
    simp
  · intro hs
    rcases he : (Encode pk v).2 with _ | e
    · rw [h1.mp he] at hs
      exact absurd hs (by simp)
    · rw [h2 e he]

theorem Encode_fails_iff_unsupported_witness :
    ((∀ u, (specPacker.PackUint16 u).2 = none) ∧ (∀ i, (specPacker.PackInt32 i).2 = none) ∧
      (∀ i, (specPacker.PackInt64 i).2 = none) ∧
      (∀ f, (specPacker.PackFloat64 f).2 = none)) ∧
    (((Encode specPacker (.list [.int 1, .map [(.null, .other)]])).2 ≠ none ↔
      supported (.list [.int 1, .map [(.null, .other)]]) = false) ∧
    (supported (.list [.int 1, .map [(.null, .other)]]) = false →
      (Encode specPacker (.list [.int 1, .map [(.null, .other)]])).2 =
        some "unknow type") ∧
    (supported (.list [.int 1, .map [(.null, .other)]]) = true →
      (Encode specPacker (.list [.int 1, .map [(.null, .other)]])).2 = none)) :=
  ⟨⟨fun _ => rfl, fun _ => rfl, fun _ => rfl, fun _ => rfl⟩,
    Encode_fails_iff_unsupported specPacker (fun _ => rfl) (fun _ => rfl) (fun _ => rfl)
      (fun _ => rfl) (.list [.int 1, .map [(.null, .other)]])⟩

/-! ## Tags -/

theorem Encode_map_eq (pk : Packer) (m : List (Any × Any))
    (hok : ∀ p ∈ m, (Encode pk p.1).2 = none ∧ (Encode pk p.2).2 = none) :
    Encode pk (.map m) =
      ([0x4d] ++ (m.map fun p => (Encode pk p.1).1 ++ (Encode pk p.2).1).flatten ++ [0x7a],
        none) := by
  rw [Encode, mapLoop_ok _ _ _ hok]

theorem supported_specPacker (v : Any) (hv : supported v = true) :
    (Encode specPacker v).2 = none :=
  (Encode_error_iff specPacker (fun _ => rfl) (fun _ => rfl) (fun _ => rfl) (fun _ => rfl)
    v).1.mpr hv

/-- C14: for every value tree `v` built from supported kinds, `Encode` succeeds with a
non-empty output whose first byte is the tag of the kind of `v`: `'N'` for null, `'T'` for
true and `'F'` for false, `'I'` for int32, `'L'` for int64 (a plain int has the tag of the
width it is sent in), `'D'` for double, `'d'` for a timestamp, `'b'` for a byte string of
more than 32768 bytes and `'B'` otherwise, `'s'` for a text of more than 32768 code points
and `'S'` otherwise, `'V'` for a list, `'M'` for a map. -/
theorem Encode_first_byte_is_tag (v : Any) (hv : supported v = true) :
    (Encode specPacker v).2 = none ∧ (Encode specPacker v).1 ≠ [] ∧
    (Encode specPacker v).1.head? = some (kindTag v) := by
  have hCS : CHUNK_SIZE = 32768 := rfl
  have key : ∀ (t : Nat), (Encode specPacker v).1.head? = some t → kindTag v = t →
      (Encode specPacker v).2 = none ∧ (Encode specPacker v).1 ≠ [] ∧
      (Encode specPacker v).1.head? = some (kindTag v) := by
    intro t h ht
    refine ⟨supported_specPacker v hv, ?_, by rw [h, ht]⟩
    intro hnil
    rw [hnil] at h
    exact absurd h (by simp)
  cases v with
  | binary b =>
    rcases eq_or_ne b [] with rfl | hb
    · exact key 0x42 (by decide) (by decide)
    · have hpos : 0 < b.length := List.length_pos.mpr hb
      by_cases hgt : b.length > 32768
      · obtain ⟨k, hk⟩ : ∃ k, (b.length - 1) / CHUNK_SIZE = k + 1 :=
          ⟨(b.length - 1) / CHUNK_SIZE - 1, by rw [hCS]; omega⟩
        refine key 0x62 ?_ (by simp [kindTag, hgt])
        rw [Encode, encodeBinary_chunks b hb, hk]
        simp only [contChunks, Chunk.wire, List.map_append, List.map_cons, List.flatten_append,
          List.flatten_cons, List.cons_append, List.head?_cons]
      · have hk : (b.length - 1) / CHUNK_SIZE = 0 := by
          rw [hCS]
          omega
        refine key 0x42 ?_ (by simp [kindTag, hgt])
        rw [Encode, encodeBinary_chunks b hb, hk]
        simp only [contChunks, finalChunk, Chunk.wire, List.nil_append, List.map_cons,
          List.map_nil, List.flatten_cons, List.cons_append, List.head?_cons]
  | bool b =>
    cases b
    · exact key 0x46 (by decide) (by decide)
    · exact key 0x54 (by decide) (by decide)
  | time t => exact key 0x64 (by simp [Encode, encodeTime]) rfl
  | float64 f => exact key 0x44 (by simp [Encode, encodeFloat64]) rfl
  | int n =>
    by_cases hn : n ≥ -2147483648 ∧ n ≤ 2147483647
    · exact key 0x49 (by simp [Encode, encodeInt32, hn]) (by simp [kindTag, hn])
    · exact key 0x4c (by simp [Encode, encodeInt64, hn]) (by simp [kindTag, hn])
  | int32 n => exact key 0x49 (by simp [Encode, encodeInt32]) rfl
  | int64 n => exact key 0x4c (by simp [Encode, encodeInt64]) rfl
  | string s =>
    rcases eq_or_ne s [] with rfl | hs
    · exact key 0x53 (by decide) (by decide)
    · have hpos : 0 < RuneCount s := by
        rw [RuneCount_of_ne_nil s hs]
        omega
      by_cases hgt : RuneCount s > 32768
      · obtain ⟨k, hk⟩ : ∃ k, (RuneCount s - 1) / CHUNK_SIZE = k + 1 :=
          ⟨(RuneCount s - 1) / CHUNK_SIZE - 1, by rw [hCS]; omega⟩
        refine key 0x73 ?_ (by simp [kindTag, hgt])
        rw [Encode, encodeString_chunks s hs, hk]
        simp only [textCont, Chunk.wire, List.map_append, List.map_cons, List.flatten_append,
          List.flatten_cons, List.cons_append, List.head?_cons]
      · have hk : (RuneCount s - 1) / CHUNK_SIZE = 0 := by
          rw [hCS]
          omega
        refine key 0x53 ?_ (by simp [kindTag, hgt])
        rw [Encode, encodeString_chunks s hs, hk]
        simp only [textCont, textFinal, Chunk.wire, List.nil_append, List.map_cons,
          List.map_nil, List.flatten_cons, List.cons_append, List.head?_cons]
  | null => exact key 0x4e (by simp [Encode, encodeNull]) rfl
  | list xs =>
    have hok : ∀ x ∈ xs, (Encode specPacker x).2 = none := by
      rw [supported, supportedList_iff] at hv
      exact fun x hx => supported_specPacker x (hv x hx)
    refine key 0x56 ?_ rfl
    rw [Encode_list_eq xs hok]
    simp only [List.cons_append, List.head?_cons]
  | map m =>
    have hok : ∀ p ∈ m, (Encode specPacker p.1).2 = none ∧ (Encode specPacker p.2).2 = none := by
      rw [supported, supportedPairs_iff] at hv
      exact fun p hp => ⟨supported_specPacker _ (hv p hp).1, supported_specPacker _ (hv p hp).2⟩
    refine key 0x4d ?_ rfl
    rw [Encode_map_eq specPacker m hok]
    simp only [List.cons_append, List.head?_cons]
  | other => simp [supported] at hv

theorem Encode_first_byte_is_tag_witness :
    supported (.list [.bool true, .string [0x68, 0x69]]) = true ∧
    ((Encode specPacker (.list [.bool true, .string [0x68, 0x69]])).2 = none ∧
      (Encode specPacker (.list [.bool true, .string [0x68, 0x69]])).1 ≠ [] ∧
      (Encode specPacker (.list [.bool true, .string [0x68, 0x69]])).1.head? =
        some (kindTag (.list [.bool true, .string [0x68, 0x69]]))) :=
  ⟨by decide, Encode_first_byte_is_tag _ (by decide)⟩

/-! ## Maps and iteration order -/

theorem Encode_map_ok_iff (pk : Packer) (m : List (Any × Any)) :
    (Encode pk (.map m)).2 = none ↔
      ∀ p ∈ m, (Encode pk p.1).2 = none ∧ (Encode pk p.2).2 = none := by
  rw [Encode]
  exact (mapLoop_error pk m _).1

theorem Encode_map_blocks (pk : Packer) (m : List (Any × Any))
    (hok : (Encode pk (.map m)).2 = none) :
    Encode pk (.map m) = (0x4d :: (pairBlocks pk m).flatten ++ [0x7a], none) := by
  rw [Encode_map_eq pk m ((Encode_map_ok_iff pk m).mp hok)]
  rfl

/-- C16, as the code has it: when two pair sequences are permutations of each other, the
two map encodings have the same length and the per-pair byte blocks
`Encode(key)++Encode(value)` of one are the corresponding permutation of the other's; one
mapping encodes without error exactly when the other does, and then both encodings are
`'M'`, the blocks, `'z'`, so both start with `'M'` and end with `'z'`; otherwise both
are empty. -/
theorem Encode_map_perm (pk : Packer) (m1 m2 : List (Any × Any)) (hperm : m1.Perm m2) :
    (Encode pk (.map m1)).1.length = (Encode pk (.map m2)).1.length ∧
    (pairBlocks pk m1).Perm (pairBlocks pk m2) ∧
    ((Encode pk (.map m1)).2 = none ↔ (Encode pk (.map m2)).2 = none) ∧
    ((Encode pk (.map m1)).2 = none →
      Encode pk (.map m1) = (0x4d :: (pairBlocks pk m1).flatten ++ [0x7a], none) ∧
      Encode pk (.map m2) = (0x4d :: (pairBlocks pk m2).flatten ++ [0x7a], none) ∧
      (Encode pk (.map m1)).1.head? = some 0x4d ∧
      (Encode pk (.map m2)).1.head? = some 0x4d ∧
      (Encode pk (.map m1)).1.getLast? = some 0x7a ∧
      (Encode pk (.map m2)).1.getLast? = some 0x7a) ∧
    ((Encode pk (.map m1)).2 ≠ none →
      (Encode pk (.map m1)).1 = [] ∧ (Encode pk (.map m2)).1 = []) := by
  have hblocks : (pairBlocks pk m1).Perm (pairBlocks pk m2) := hperm.map _
  have hiff : (Encode pk (.map m1)).2 = none ↔ (Encode pk (.map m2)).2 = none := by
    rw [Encode_map_ok_iff, Encode_map_ok_iff]
    exact ⟨fun h p hp => h p (hperm.mem_iff.mpr hp), fun h p hp => h p (hperm.mem_iff.mp hp)⟩
  have hform : (Encode pk (.map m1)).2 = none →
      Encode pk (.map m1) = (0x4d :: (pairBlocks pk m1).flatten ++ [0x7a], none) ∧
      Encode pk (.map m2) = (0x4d :: (pairBlocks pk m2).flatten ++ [0x7a], none) :=
    fun h => ⟨Encode_map_blocks pk m1 h, Encode_map_blocks pk m2 (hiff.mp h)⟩
  have hfail : (Encode pk (.map m1)).2 ≠ none →
      (Encode pk (.map m1)).1 = [] ∧ (Encode pk (.map m2)).1 = [] :=
    fun h => ⟨Encode_atomic pk _ h, Encode_atomic pk _ (fun h2 => h (hiff.mpr h2))⟩
  refine ⟨?_, hblocks, hiff, ?_, hfail⟩
  · by_cases h : (Encode pk (.map m1)).2 = none
    · obtain ⟨h1, h2⟩ := hform h
      rw [h1, h2]
      simp only [List.length_cons, List.length_append, List.length_singleton]
      rw [hblocks.flatten.length_eq]
    · obtain ⟨h1, h2⟩ := hfail h
      rw [h1, h2]
  · intro h
    obtain ⟨h1, h2⟩ := hform h
    refine ⟨h1, h2, ?_, ?_, ?_, ?_⟩
    · rw [h1]
      rfl
    · rw [h2]
      rfl
    · rw [h1]
      exact List.getLast?_concat _
    · rw [h2]
      exact List.getLast?_concat _

theorem Encode_map_perm_witness :
    [(Any.string [0x61], Any.int 1), (Any.null, Any.bool false)].Perm
      [(Any.null, Any.bool false), (Any.string [0x61], Any.int 1)] ∧
    (Encode specPacker (.map [(Any.string [0x61], Any.int 1), (Any.null, Any.bool false)])).2 =
      none ∧
    (Encode specPacker
        (.map [(Any.string [0x61], Any.int 1), (Any.null, Any.bool false)])).1.length =
      (Encode specPacker
        (.map [(Any.null, Any.bool false), (Any.string [0x61], Any.int 1)])).1.length ∧
    (Encode specPacker
      (.map [(Any.string [0x61], Any.int 1), (Any.null, Any.bool false)])).1.head? =
        some 0x4d ∧
    (Encode specPacker
      (.map [(Any.null, Any.bool false), (Any.string [0x61], Any.int 1)])).1.getLast? =
        some 0x7a :=
  have h := Encode_map_perm specPacker
    [(Any.string [0x61], Any.int 1), (Any.null, Any.bool false)]
    [(Any.null, Any.bool false), (Any.string [0x61], Any.int 1)] (List.Perm.swap _ _ _)
  ⟨List.Perm.swap _ _ _, by decide, h.1, (h.2.2.2.1 (by decide)).2.2.1,
    (h.2.2.2.1 (by decide)).2.2.2.2.2⟩

/-- C16, as stated, fails on a mapping with a value `Encode` does not support: for the
one pair `(nil, x)` with `x` of an unsupported type, a permutation of itself, `Encode`
returns the error `unknow type` and no bytes, so the result does not start with `'M'`
and does not end with `'z'`. -/
theorem Encode_map_unsupported_no_frame :
    [(Any.null, Any.other)].Perm [(Any.null, Any.other)] ∧
    Encode specPacker (.map [(Any.null, Any.other)]) = ([], some "unknow type") ∧
    (Encode specPacker (.map [(Any.null, Any.other)])).1.head? ≠ some 0x4d ∧
    (Encode specPacker (.map [(Any.null, Any.other)])).1.getLast? ≠ some 0x7a := by
  refine ⟨List.Perm.refl _, by decide, by decide, by decide⟩

end gohessian
